import Mathlib

/-!
# Verification of the gascraft2d core (`src/gascraft2d/core.py`)

A shallow embedding of the world/inventory/player core of the game, together
with proofs of the specification claims about it.

Modelling conventions:

* Python integers are `Int` (arbitrary precision in Python).
* Python floats are modelled as `ℚ`.  The only transcendental primitives the
  core uses are `math.sin` and `math.cos`; they are abstracted into a
  `NoiseModel` parameter (a pair of arbitrary, fixed functions `ℚ → ℚ`),
  which captures everything the claims need: the primitives are deterministic
  pure functions of their argument.
* Python `dict` values are modelled as insertion-ordered association lists:
  an update replaces the value of the first (only, for genuinely dict-built
  lists) occurrence of the key in place, and a fresh key is appended at the
  end, exactly like CPython's insertion-ordered dicts.
* `int(q)` on a float truncates toward zero (`pyInt`), `math.floor(a / b)`
  on integer arguments is flooring division (`Int.fdiv`).
-/

namespace Gascraft

/-! ## Constants from the source -/

def BLOCK_AIR : Int := 0
def BLOCK_DIRT : Int := 1
def BLOCK_STONE : Int := 2
def BLOCK_ORE : Int := 3
def BLOCK_WOOD : Int := 4
def BLOCK_BEDROCK : Int := 5

def TILE_SIZE : Int := 32
def CHUNK_SIZE : Int := 16
def WORLD_HEIGHT : Int := 180

/-- `BLOCKS[b].solid` for the ids that occur in the registry table.
Air is the only non-solid entry. -/
def blockSolid (b : Int) : Bool :=
  b = BLOCK_DIRT ∨ b = BLOCK_STONE ∨ b = BLOCK_ORE ∨ b = BLOCK_WOOD ∨
    b = BLOCK_BEDROCK

/-! ## Python-dict model: insertion-ordered association lists -/

/-- First value stored under key `k` (Python `d.get(k)` / `d[k]`). -/
def dget {α β : Type} [DecidableEq α] (m : List (α × β)) (k : α) : Option β :=
  match m with
  | [] => none
  | (k', v) :: rest => if k' = k then some v else dget rest k

/-- Python `d[k] = v`: replace in place, or append when the key is new. -/
def dinsert {α β : Type} [DecidableEq α] (m : List (α × β)) (k : α) (v : β) :
    List (α × β) :=
  match m with
  | [] => [(k, v)]
  | (k', v') :: rest =>
      if k' = k then (k', v) :: rest else (k', v') :: dinsert rest k v

/-- Python `d.pop(k, None)`: drop the entry for `k` when present. -/
def derase {α β : Type} [DecidableEq α] (m : List (α × β)) (k : α) :
    List (α × β) :=
  match m with
  | [] => []
  | (k', v') :: rest => if k' = k then rest else (k', v') :: derase rest k

/-- Keys of an association list, in order. -/
def dkeys {α β : Type} (m : List (α × β)) : List α := m.map Prod.fst

@[simp] theorem dkeys_nil {α β : Type} : dkeys ([] : List (α × β)) = [] := rfl

@[simp] theorem dkeys_cons {α β : Type} (k : α) (v : β) (m : List (α × β)) :
    dkeys ((k, v) :: m) = k :: dkeys m := rfl

/-! ### Dict lemmas -/

theorem dget_dinsert {α β : Type} [DecidableEq α] (m : List (α × β)) (k : α)
    (v : β) : dget (dinsert m k v) k = some v := by
  induction m with
  | nil => simp [dget, dinsert]
  | cons hd tl ih =>
      obtain ⟨k', v'⟩ := hd
      by_cases h : k' = k <;> simp [dget, dinsert, h, ih]

theorem dget_dinsert_ne {α β : Type} [DecidableEq α] (m : List (α × β))
    (k k' : α) (v : β) (hne : k ≠ k') :
    dget (dinsert m k v) k' = dget m k' := by
  induction m with
  | nil => simp [dget, dinsert, hne]
  | cons hd tl ih =>
      obtain ⟨k0, v0⟩ := hd
      by_cases h : k0 = k
      · subst h
        simp [dget, dinsert, hne]
      · by_cases h' : k0 = k' <;> simp [dget, dinsert, h, h', Ne.symm hne, ih]

theorem dget_eq_none_of_not_mem {α β : Type} [DecidableEq α]
    (m : List (α × β)) (k : α) (h : k ∉ dkeys m) : dget m k = none := by
  induction m with
  | nil => simp [dget]
  | cons hd tl ih =>
      obtain ⟨k', v'⟩ := hd
      simp only [dkeys, List.map_cons, List.mem_cons, not_or] at h
      have : k' ≠ k := fun he => h.1 he.symm
      simp [dget, this, ih (by simpa [dkeys] using h.2)]

theorem dget_derase {α β : Type} [DecidableEq α] (m : List (α × β)) (k : α)
    (hnd : (dkeys m).Nodup) : dget (derase m k) k = none := by
  induction m with
  | nil => simp [dget, derase]
  | cons hd tl ih =>
      obtain ⟨k', v'⟩ := hd
      simp only [dkeys, List.map_cons, List.nodup_cons] at hnd
      by_cases h : k' = k
      · subst h
        simp only [derase, if_pos rfl]
        exact dget_eq_none_of_not_mem tl k' (by simpa [dkeys] using hnd.1)
      · simp [derase, h, dget, ih hnd.2]

theorem dget_isSome_iff_mem {α β : Type} [DecidableEq α] (m : List (α × β))
    (k : α) : (dget m k).isSome ↔ k ∈ dkeys m := by
  induction m with
  | nil => simp [dget]
  | cons hd tl ih =>
      obtain ⟨k', v'⟩ := hd
      by_cases h : k' = k
      · subst h
        simp [dget]
      · have h' : k ≠ k' := fun he => h he.symm
        simp [dget, h, h', ih]

theorem mem_of_dget {α β : Type} [DecidableEq α] {m : List (α × β)} {k : α}
    {v : β} (h : dget m k = some v) : (k, v) ∈ m := by
  induction m with
  | nil => simp [dget] at h
  | cons hd tl ih =>
      obtain ⟨k', v'⟩ := hd
      by_cases hk : k' = k
      · rw [dget, if_pos hk] at h
        obtain rfl : v' = v := Option.some.inj h
        rw [← hk]
        exact List.mem_cons_self _ _
      · rw [dget, if_neg hk] at h
        exact List.mem_cons_of_mem _ (ih h)

theorem dinsert_eq_append {α β : Type} [DecidableEq α] {m : List (α × β)}
    {k : α} (v : β) (h : k ∉ dkeys m) : dinsert m k v = m ++ [(k, v)] := by
  induction m with
  | nil => simp [dinsert]
  | cons hd tl ih =>
      obtain ⟨k', v'⟩ := hd
      simp only [dkeys_cons, List.mem_cons, not_or] at h
      have : k' ≠ k := fun he => h.1 he.symm
      simp [dinsert, this, ih h.2]

theorem dkeys_dinsert {α β : Type} [DecidableEq α] (m : List (α × β)) (k : α)
    (v : β) :
    dkeys (dinsert m k v) = if k ∈ dkeys m then dkeys m else dkeys m ++ [k] := by
  induction m with
  | nil => simp [dinsert]
  | cons hd tl ih =>
      obtain ⟨k', v'⟩ := hd
      by_cases h : k' = k
      · subst h
        simp [dinsert]
      · have h' : k ≠ k' := fun he => h he.symm
        by_cases hm : k ∈ dkeys tl <;> simp [dinsert, h, h', hm, ih]

theorem nodup_dkeys_dinsert {α β : Type} [DecidableEq α] (m : List (α × β))
    (k : α) (v : β) (h : (dkeys m).Nodup) : (dkeys (dinsert m k v)).Nodup := by
  rw [dkeys_dinsert]
  by_cases hm : k ∈ dkeys m
  · rw [if_pos hm]
    exact h
  · rw [if_neg hm]
    exact List.Nodup.append h (List.nodup_singleton k) (by simpa using hm)

theorem derase_sublist {α β : Type} [DecidableEq α] (m : List (α × β))
    (k : α) : (derase m k).Sublist m := by
  induction m with
  | nil => simp [derase]
  | cons hd tl ih =>
      obtain ⟨k', v'⟩ := hd
      by_cases h : k' = k
      · rw [derase, if_pos h]
        exact List.sublist_cons_self _ _
      · rw [derase, if_neg h]
        exact ih.cons₂ (k', v')

theorem nodup_dkeys_derase {α β : Type} [DecidableEq α] (m : List (α × β))
    (k : α) (h : (dkeys m).Nodup) : (dkeys (derase m k)).Nodup :=
  List.Nodup.sublist ((derase_sublist m k).map Prod.fst) h

/-- A fold preserves any invariant its step function preserves. -/
theorem foldl_preserve {α β : Type} (P : α → Prop) (f : α → β → α)
    (l : List β) (init : α) (h0 : P init)
    (hstep : ∀ a b, P a → P (f a b)) : P (l.foldl f init) := by
  induction l generalizing init with
  | nil => simpa using h0
  | cons hd tl ih => exact ih _ (hstep _ _ h0)

/-- `[lo, lo+1, ..., hi-1]`, the model of Python `range(lo, hi)`. -/
def intRange (lo hi : Int) : List Int :=
  (List.range (hi - lo).toNat).map (fun (i : Nat) => lo + (i : Int))

theorem mem_intRange {lo hi x : Int} :
    x ∈ intRange lo hi ↔ lo ≤ x ∧ x < hi := by
  constructor
  · intro hx
    obtain ⟨i, him, he⟩ := List.mem_map.mp hx
    have hlt : i < (hi - lo).toNat := List.mem_range.mp him
    omega
  · intro ⟨h1, h2⟩
    exact List.mem_map.mpr
      ⟨(x - lo).toNat, List.mem_range.mpr (by omega), by omega⟩

/-! ## The World model

The Python code computes terrain noise with `math.sin`/`math.cos` on IEEE
doubles.  Those two primitives are abstracted into a `NoiseModel`; everything
else follows the formulas of the source with `ℚ` in place of `float`. -/

structure NoiseModel where
  sin : ℚ → ℚ
  cos : ℚ → ℚ
  sin_lb : ∀ x, -1 ≤ sin x
  sin_ub : ∀ x, sin x ≤ 1
  cos_lb : ∀ x, -1 ≤ cos x
  cos_ub : ∀ x, cos x ≤ 1

/-- A generated chunk: the sparse `(wx, wy) ↦ block_id` dict. -/
abbrev Chunk := List ((Int × Int) × Int)

structure World where
  seed : Int
  chunk_size : Int
  height : Int
  base_surface : Int
  chunks : List (Int × Chunk)
  deriving DecidableEq

/-- `World.__init__` with an explicit seed (the claims always fix the seed;
the `random.randint` default of the source is only taken when no seed is
passed). -/
def freshWorld (seed : Int) : World :=
  { seed := seed
    chunk_size := CHUNK_SIZE
    height := WORLD_HEIGHT
    base_surface := 72
    chunks := [] }

/-- Python `int(q)` on a float: truncation toward zero. -/
def pyInt (q : ℚ) : Int := Int.tdiv q.num (q.den : Int)

/-- `World._noise`. -/
def noiseAt (nm : NoiseModel) (seed : Int) (x scale salt : ℚ) : ℚ :=
  let v := x / scale
  let a := nm.sin (v * 1.41 + ((seed : ℚ) + salt) * 0.0013)
  let b := nm.sin (v * 0.49 + ((seed : ℚ) + salt * 2.0) * 0.00071)
  let c := nm.cos (v * 2.21 + ((seed : ℚ) - salt) * 0.00191)
  (a * 0.6 + b * 0.3 + c * 0.1 + 1.0) * 0.5

/-- `World._surface_height`. -/
def surfaceHeight (nm : NoiseModel) (w : World) (wx : Int) : Int :=
  let m1 := noiseAt nm w.seed (wx : ℚ) 130.0 110.0
  let m2 := noiseAt nm w.seed (wx : ℚ) 48.0 321.0
  let m3 := noiseAt nm w.seed (wx : ℚ) 18.0 690.0
  let h := w.base_surface +
    pyInt ((m1 - 0.5) * 26 + (m2 - 0.5) * 14 + (m3 - 0.5) * 7)
  max 22 (min (w.height - 24) h)

/-- `World._cave_noise`. -/
def caveNoise (nm : NoiseModel) (seed : Int) (wx wy : Int) : ℚ :=
  (nm.sin ((wx : ℚ) * 0.081 + (seed : ℚ) * 0.0041)
    + nm.cos ((wy : ℚ) * 0.095 - (seed : ℚ) * 0.0037)
    + nm.sin (((wx : ℚ) + (wy : ℚ)) * 0.061 + (seed : ℚ) * 0.0027)
    + 3.0) / 6.0

/-- `World._ore_noise`. -/
def oreNoise (nm : NoiseModel) (seed : Int) (wx wy : Int) : ℚ :=
  (nm.sin ((wx : ℚ) * 0.19 + (seed : ℚ) * 0.0053)
    + nm.cos ((wy : ℚ) * 0.17 - (seed : ℚ) * 0.0044)
    + nm.cos (((wx : ℚ) - (wy : ℚ)) * 0.083 + (seed : ℚ) * 0.0019)
    + 3.0) / 6.0

/-- `World._tree_noise`. -/
def treeNoise (nm : NoiseModel) (w : World) (wx : Int) : ℚ :=
  noiseAt nm w.seed (wx : ℚ) 13.0 999.0

/-- One cell of the first (terrain) loop of `generate_chunk`
(`core.py` lines 312-328). -/
def terrainCell (nm : NoiseModel) (w : World) (wx wy surface : Int)
    (blocks : Chunk) : Chunk :=
  let bid : Int :=
    if wy = w.height - 1 then BLOCK_BEDROCK
    else if wy ≤ surface + 2 then BLOCK_DIRT
    else BLOCK_STONE
  if surface + 5 < wy then
    if 0.75 < caveNoise nm w.seed wx wy then blocks
    else
      let bid :=
        if 0.82 < oreNoise nm w.seed wx wy ∧ w.base_surface + 5 < wy then
          BLOCK_ORE
        else bid
      dinsert blocks (wx, wy) bid
  else dinsert blocks (wx, wy) bid

/-- One column of the terrain loop of `generate_chunk`. -/
def terrainColumn (nm : NoiseModel) (w : World) (wx : Int) (blocks : Chunk) :
    Chunk :=
  let surface := surfaceHeight nm w wx
  (intRange surface w.height).foldl
    (fun b wy => terrainCell nm w wx wy surface b) blocks

/-- One column of the tree loop of `generate_chunk`
(`core.py` lines 330-346).  The per-column `surfaces[wx]` cache of the
source stores exactly `_surface_height(wx)`, which is recomputed here. -/
def treeColumn (nm : NoiseModel) (w : World) (wx : Int) (blocks : Chunk) :
    Chunk :=
  let surface := surfaceHeight nm w wx
  if 0.84 < treeNoise nm w wx ∧ treeNoise nm w (wx + 1) < 0.6 then
    let trunkH := 3 + pyInt (treeNoise nm w (wx * 2) * 3)
    let b1 := (intRange 0 trunkH).foldl (fun b i =>
      let wy := surface - 1 - i
      if 2 < wy then dinsert b (wx, wy) BLOCK_WOOD else b) blocks
    let crownY := surface - 1 - trunkH
    (intRange (-2) 3).foldl (fun b ox =>
      (intRange (-2) 2).foldl (fun b oy =>
        if 3 < |ox| + |oy| then b
        else
          let lx := wx + ox
          let ly := crownY + oy
          if 1 < ly then dinsert b (lx, ly) BLOCK_WOOD else b) b) b1
  else blocks

/-- The block dict built by `generate_chunk` for chunk `cx` (the value the
source stores into `self.chunks[chunk_x]`). -/
def chunkBlocks (nm : NoiseModel) (w : World) (cx : Int) : Chunk :=
  let x0 := cx * w.chunk_size
  let x1 := x0 + w.chunk_size
  let b1 := (intRange x0 x1).foldl (fun b wx => terrainColumn nm w wx b) []
  (intRange x0 x1).foldl (fun b wx => treeColumn nm w wx b) b1

/-- `World.generate_chunk`. -/
def generateChunk (nm : NoiseModel) (w : World) (cx : Int) : World :=
  if (dget w.chunks cx).isSome then w
  else { w with chunks := dinsert w.chunks cx (chunkBlocks nm w cx) }

/-- `World.ensure_chunks`. -/
def ensureChunks (nm : NoiseModel) (w : World) (minC maxC : Int) : World :=
  (intRange minC (maxC + 1)).foldl (fun w cx => generateChunk nm w cx) w

/-- `World.get_block`: the returned id together with the world after the
lazy generation it may trigger. -/
def getBlock (nm : NoiseModel) (w : World) (wx wy : Int) : Int × World :=
  if wy < 0 ∨ w.height ≤ wy then (BLOCK_AIR, w)
  else
    let cx := Int.fdiv wx w.chunk_size
    let w' := generateChunk nm w cx
    ((dget ((dget w'.chunks cx).getD []) (wx, wy)).getD BLOCK_AIR, w')

/-- `World.set_block`. -/
def setBlock (nm : NoiseModel) (w : World) (wx wy bid : Int) : World :=
  if wy < 0 ∨ w.height ≤ wy then w
  else
    let cx := Int.fdiv wx w.chunk_size
    let w' := generateChunk nm w cx
    let ch := (dget w'.chunks cx).getD []
    let ch' := if bid = BLOCK_AIR then derase ch (wx, wy)
               else dinsert ch (wx, wy) bid
    { w' with chunks := dinsert w'.chunks cx ch' }

/-- `World.iter_visible_blocks`, with the produced sequence as a list. -/
def iterVisibleBlocks (nm : NoiseModel) (w : World)
    (minX maxX minY maxY : Int) : List (Int × Int × Int) × World :=
  let minC := Int.fdiv minX w.chunk_size
  let maxC := Int.fdiv maxX w.chunk_size
  let w' := ensureChunks nm w minC maxC
  ((intRange minC (maxC + 1)).flatMap (fun cx =>
    ((dget w'.chunks cx).getD []).filterMap (fun p =>
      if minX ≤ p.1.1 ∧ p.1.1 ≤ maxX ∧ minY ≤ p.1.2 ∧ p.1.2 ≤ maxY then
        some (p.1.1, p.1.2, p.2)
      else none)), w')

/-! ## The Inventory model

`Inventory.slots` is the fixed list of 27 optional stacks.  Python's
`selected_hotbar` is an index into it; the model reads out-of-range indices
as empty slots (the source would raise `IndexError`, also leaving the
inventory unchanged), and the theorems that need it assume the index is in
range. -/

structure ItemStack where
  block_id : Int
  count : Int
  deriving DecidableEq

structure Inventory where
  slots : List (Option ItemStack)
  selected_hotbar : Nat
  dragging : Option ItemStack
  deriving DecidableEq

/-- First loop of `Inventory.add_item`: top up existing same-type stacks
below the 999 cap, left to right.  Returns the updated slots and the
remaining count; the source enters with `remaining = count > 0` and stops
as soon as `remaining` reaches 0, leaving the rest of the slots as is. -/
def fillExisting (bid : Int) : List (Option ItemStack) → Int →
    List (Option ItemStack) × Int
  | [], rem => ([], rem)
  | none :: rest, rem =>
      let p := fillExisting bid rest rem
      (none :: p.1, p.2)
  | some st :: rest, rem =>
      if st.block_id = bid ∧ st.count < 999 then
        let add := min (999 - st.count) rem
        let st' : ItemStack := { st with count := st.count + add }
        if rem - add = 0 then (some st' :: rest, 0)
        else
          let p := fillExisting bid rest (rem - add)
          (some st' :: p.1, p.2)
      else
        let p := fillExisting bid rest rem
        (some st :: p.1, p.2)

/-- Second loop of `Inventory.add_item`: fill empty slots left to right with
new stacks of at most 999 each (entered with `remaining > 0`). -/
def fillEmpty (bid : Int) : List (Option ItemStack) → Int →
    List (Option ItemStack) × Int
  | [], rem => ([], rem)
  | none :: rest, rem =>
      let add := min 999 rem
      if rem - add = 0 then (some (⟨bid, add⟩ : ItemStack) :: rest, 0)
      else
        let p := fillEmpty bid rest (rem - add)
        (some (⟨bid, add⟩ : ItemStack) :: p.1, p.2)
  | some st :: rest, rem =>
      let p := fillEmpty bid rest rem
      (some st :: p.1, p.2)

/-- `Inventory.add_item`. -/
def addItem (inv : Inventory) (bid cnt : Int) : Bool × Inventory :=
  if bid = BLOCK_AIR ∨ cnt ≤ 0 then (false, inv)
  else
    let p1 := fillExisting bid inv.slots cnt
    if p1.2 = 0 then (true, { inv with slots := p1.1 })
    else
      let p2 := fillEmpty bid p1.1 p1.2
      (decide (p2.2 = 0), { inv with slots := p2.1 })

/-- `Inventory.consume_selected`. -/
def consumeSelected (inv : Inventory) (amount : Int) :
    Option Int × Inventory :=
  match inv.slots.getD inv.selected_hotbar none with
  | none => (none, inv)
  | some st =>
      if st.count < amount then (none, inv)
      else
        let c := st.count - amount
        let slot' := if c = 0 then none else some { st with count := c }
        (some st.block_id,
          { inv with slots := inv.slots.set inv.selected_hotbar slot' })

/-- The total count of `bid` across the slots (the sum `has_items`
computes). -/
def totalCount (slots : List (Option ItemStack)) (bid : Int) : Int :=
  slots.foldr (fun s acc =>
    match s with
    | some st => if st.block_id = bid then st.count + acc else acc
    | none => acc) 0

/-- `Inventory.has_items`. -/
def hasItems (inv : Inventory) (bid cnt : Int) : Bool :=
  cnt ≤ totalCount inv.slots bid

/-- The removal loop of `Inventory.remove_items` (entered only when
`has_items` succeeded). -/
def removeFrom (bid : Int) : List (Option ItemStack) → Int →
    List (Option ItemStack) × Int
  | [], rem => ([], rem)
  | none :: rest, rem =>
      let p := removeFrom bid rest rem
      (none :: p.1, p.2)
  | some st :: rest, rem =>
      if st.block_id = bid then
        let take := min st.count rem
        let c := st.count - take
        let slot' := if c = 0 then none else some { st with count := c }
        if rem - take = 0 then (slot' :: rest, 0)
        else
          let p := removeFrom bid rest (rem - take)
          (slot' :: p.1, p.2)
      else
        let p := removeFrom bid rest rem
        (some st :: p.1, p.2)

/-- `Inventory.remove_items`. -/
def removeItems (inv : Inventory) (bid cnt : Int) : Bool × Inventory :=
  if ¬ hasItems inv bid cnt then (false, inv)
  else (true, { inv with slots := (removeFrom bid inv.slots cnt).1 })

/-- `Inventory.click_slot`. -/
def clickSlot (inv : Inventory) (idx : Nat) : Inventory :=
  match inv.slots.getD idx none, inv.dragging with
  | none, none => inv
  | some st, none =>
      { inv with dragging := some st, slots := inv.slots.set idx none }
  | none, some drag =>
      { inv with slots := inv.slots.set idx (some drag), dragging := none }
  | some ex, some drag =>
      if ex.block_id = drag.block_id ∧ ex.count < 999 then
        let add := min (999 - ex.count) drag.count
        let ex' : ItemStack := { ex with count := ex.count + add }
        let dc := drag.count - add
        { inv with
            slots := inv.slots.set idx (some ex'),
            dragging :=
              if dc ≤ 0 then none else some { drag with count := dc } }
      else
        { inv with slots := inv.slots.set idx (some drag),
                   dragging := some ex }

/-! ### Inventory lemmas -/

@[simp] theorem totalCount_nil (bid : Int) : totalCount [] bid = 0 := rfl

@[simp] theorem totalCount_cons_none (slots : List (Option ItemStack))
    (bid : Int) : totalCount (none :: slots) bid = totalCount slots bid := rfl

@[simp] theorem totalCount_cons_some (st : ItemStack)
    (slots : List (Option ItemStack)) (bid : Int) :
    totalCount (some st :: slots) bid =
      (if st.block_id = bid then st.count else 0) + totalCount slots bid := by
  by_cases h : st.block_id = bid <;> simp [totalCount, h]

/-- Per-matching-slot capacity summed by the first `add_item` loop. -/
def capExisting (slots : List (Option ItemStack)) (bid : Int) : Int :=
  slots.foldr (fun s acc =>
    match s with
    | some st =>
        if st.block_id = bid ∧ st.count < 999 then (999 - st.count) + acc
        else acc
    | none => acc) 0

/-- Number of empty slots. -/
def emptyCount (slots : List (Option ItemStack)) : Int :=
  slots.foldr (fun s acc =>
    match s with
    | some _ => acc
    | none => 1 + acc) 0

/-- Total capacity `add_item` can place into the slot list: headroom of
existing below-cap stacks of the same type plus 999 per empty slot. -/
def addCap (slots : List (Option ItemStack)) (bid : Int) : Int :=
  capExisting slots bid + 999 * emptyCount slots

@[simp] theorem capExisting_nil (bid : Int) : capExisting [] bid = 0 := rfl

@[simp] theorem capExisting_cons_none (slots : List (Option ItemStack))
    (bid : Int) : capExisting (none :: slots) bid = capExisting slots bid :=
  rfl

@[simp] theorem capExisting_cons_some (st : ItemStack)
    (slots : List (Option ItemStack)) (bid : Int) :
    capExisting (some st :: slots) bid =
      (if st.block_id = bid ∧ st.count < 999 then 999 - st.count else 0) +
        capExisting slots bid := by
  by_cases h : st.block_id = bid ∧ st.count < 999 <;>
    simp [capExisting, h]

@[simp] theorem emptyCount_nil : emptyCount [] = 0 := rfl

@[simp] theorem emptyCount_cons_none (slots : List (Option ItemStack)) :
    emptyCount (none :: slots) = 1 + emptyCount slots := rfl

@[simp] theorem emptyCount_cons_some (st : ItemStack)
    (slots : List (Option ItemStack)) :
    emptyCount (some st :: slots) = emptyCount slots := rfl

theorem capExisting_nonneg (slots : List (Option ItemStack)) (bid : Int) :
    0 ≤ capExisting slots bid := by
  induction slots with
  | nil => simp
  | cons hd tl ih =>
      match hd with
      | none => simpa using ih
      | some st =>
          by_cases h : st.block_id = bid ∧ st.count < 999 <;>
            simp [h] <;> omega

theorem emptyCount_nonneg (slots : List (Option ItemStack)) :
    0 ≤ emptyCount slots := by
  induction slots with
  | nil => simp
  | cons hd tl ih =>
      match hd with
      | none => simpa using by omega
      | some st => simpa using ih

theorem removeFrom_spec (bid : Int) (slots : List (Option ItemStack)) :
    ∀ rem : Int, 0 ≤ rem → rem ≤ totalCount slots bid →
      (removeFrom bid slots rem).2 = 0 ∧
      totalCount (removeFrom bid slots rem).1 bid =
        totalCount slots bid - rem ∧
      (∀ b, b ≠ bid →
        totalCount (removeFrom bid slots rem).1 b = totalCount slots b) := by
  induction slots with
  | nil =>
      intro rem h0 hle
      simp only [totalCount_nil] at hle
      have : rem = 0 := le_antisymm hle h0
      subst this
      simp [removeFrom]
  | cons hd tl ih =>
      intro rem h0 hle
      match hd with
      | none =>
          simp only [removeFrom, totalCount_cons_none] at *
          obtain ⟨ha, hb, hc⟩ := ih rem h0 hle
          exact ⟨ha, hb, fun b hbne => hc b hbne⟩
      | some st =>
          by_cases hmatch : st.block_id = bid
          · have htake : min st.count rem ≤ rem := min_le_right _ _
            by_cases hz : rem - min st.count rem = 0
            · have hrem : min st.count rem = rem := by omega
              rw [removeFrom, if_pos hmatch, if_pos hz, hrem]
              refine ⟨rfl, ?_, ?_⟩
              · by_cases hc : st.count - rem = 0
                · rw [if_pos hc]
                  simp only [totalCount_cons_none, totalCount_cons_some,
                    if_pos hmatch]
                  omega
                · rw [if_neg hc]
                  simp only [totalCount_cons_some, if_pos hmatch]
                  omega
              · intro b hbne
                have hne : st.block_id ≠ b := by
                  rw [hmatch]; exact fun h => hbne h.symm
                by_cases hc : st.count - rem = 0
                · rw [if_pos hc]
                  simp only [totalCount_cons_none, totalCount_cons_some,
                    if_neg hne]
                  omega
                · rw [if_neg hc]
                  simp only [totalCount_cons_some, if_neg hne]
            · -- the slot is drained (take = st.count) and the loop continues
              have hcnt : min st.count rem = st.count := by omega
              have hrest : rem - st.count ≤ totalCount tl bid := by
                simp only [totalCount_cons_some, if_pos hmatch] at hle
                omega
              obtain ⟨ha, hb, hc⟩ := ih (rem - st.count) (by omega) hrest
              rw [removeFrom, if_pos hmatch, if_neg hz, hcnt]
              rw [if_pos (by omega : st.count - st.count = 0)]
              refine ⟨ha, ?_, ?_⟩
              · simp only [totalCount_cons_none, totalCount_cons_some,
                  if_pos hmatch, hb]
                omega
              · intro b hbne
                simp only [totalCount_cons_none, totalCount_cons_some,
                  if_neg (show st.block_id ≠ b by
                    rw [hmatch]; exact fun h => hbne h.symm), hc b hbne]
                omega
          · rw [removeFrom, if_neg hmatch]
            have hle' : rem ≤ totalCount tl bid := by
              simp only [totalCount_cons_some, if_neg hmatch] at hle
              omega
            obtain ⟨ha, hb, hc⟩ := ih rem h0 hle'
            refine ⟨ha, ?_, ?_⟩
            · simp only [totalCount_cons_some, if_neg hmatch, hb]
              omega
            · intro b hbne
              by_cases hsb : st.block_id = b
              · simp only [totalCount_cons_some, if_pos hsb, hc b hbne]
              · simp only [totalCount_cons_some, if_neg hsb, hc b hbne]

/-- The all-empty inventory (27 empty slots, nothing dragged). -/
def emptyInv : Inventory := ⟨List.replicate 27 none, 0, none⟩

/-- **C6** (amended: for non-negative `count`): `remove_items` is atomic.
With less than `count` of `blockId` available it returns `False` and leaves
the inventory untouched; otherwise it returns `True`, the total count of
`blockId` drops by exactly `count`, and totals of all other block ids are
unchanged. -/
theorem remove_items_atomic (inv : Inventory) (bid cnt : Int)
    (h0 : 0 ≤ cnt) :
    (totalCount inv.slots bid < cnt →
      removeItems inv bid cnt = (false, inv)) ∧
    (cnt ≤ totalCount inv.slots bid →
      (removeItems inv bid cnt).1 = true ∧
      totalCount (removeItems inv bid cnt).2.slots bid =
        totalCount inv.slots bid - cnt ∧
      ∀ b, b ≠ bid →
        totalCount (removeItems inv bid cnt).2.slots b =
          totalCount inv.slots b) := by
  constructor
  · intro hlt
    have : ¬ (hasItems inv bid cnt = true) := by
      simp [hasItems]
      omega
    simp [removeItems, this]
  · intro hle
    have hyes : hasItems inv bid cnt = true := by
      simp [hasItems]
      omega
    obtain ⟨_, hb, hc⟩ := removeFrom_spec bid inv.slots cnt h0 hle
    refine ⟨by simp [removeItems, hyes], ?_, ?_⟩
    · simpa [removeItems, hyes] using hb
    · intro b hbne
      simpa [removeItems, hyes] using hc b hbne

/-- **C6 counterexample**: with a negative `count` and no slot of the
requested block id, `remove_items` returns `True` yet the total count does
not change by `-count`: the claim's unrestricted "otherwise the total
decreases by exactly `count`" fails at `count = -5`. -/
theorem remove_items_neg_count_cex :
    removeItems emptyInv BLOCK_DIRT (-5) = (true, emptyInv) ∧
    totalCount (removeItems emptyInv BLOCK_DIRT (-5)).2.slots BLOCK_DIRT ≠
      totalCount emptyInv.slots BLOCK_DIRT - (-5) := by
  constructor
  · decide
  · decide

theorem remove_items_atomic_witness :
    (0 : Int) ≤ 5 ∧
    (totalCount emptyInv.slots BLOCK_DIRT < 5 →
      removeItems emptyInv BLOCK_DIRT 5 = (false, emptyInv)) :=
  ⟨by decide, (remove_items_atomic emptyInv BLOCK_DIRT 5 (by decide)).1⟩

/-- The inventory of the merge scenario: 3 of DIRT in slot 0 and 5 of DIRT
in slot 1. -/
def mergeInv : Inventory :=
  ⟨((List.replicate 27 (none : Option ItemStack)).set 0
      (some ⟨BLOCK_DIRT, 3⟩)).set 1 (some ⟨BLOCK_DIRT, 5⟩), 0, none⟩

/-- **C9**: `click_slot` merge behaviour.  When a stack of type `T` is
dragged onto a slot holding the same type below the 999 cap, up to the cap
is transferred, the remainder stays in hand, and the drag ends exactly when
the remainder reaches zero.  The second conjunct is the concrete scenario:
pick up 3 of `T` from slot 0, click slot 1 holding 5 of `T` → slot 1 holds
8 and nothing remains dragged. -/
theorem click_slot_merge (inv : Inventory) (idx : Nat) (d ex : ItemStack)
    (hd : inv.dragging = some d) (hex : inv.slots.getD idx none = some ex)
    (hsame : ex.block_id = d.block_id) (hroom : ex.count < 999) :
    ((clickSlot inv idx).slots =
        inv.slots.set idx
          (some ⟨ex.block_id, ex.count + min (999 - ex.count) d.count⟩) ∧
      (clickSlot inv idx).dragging =
        (if d.count ≤ 999 - ex.count then none
         else some ⟨d.block_id, d.count - (999 - ex.count)⟩)) ∧
    ((clickSlot (clickSlot mergeInv 0) 1).slots.getD 1 none =
        some ⟨BLOCK_DIRT, 8⟩ ∧
      (clickSlot (clickSlot mergeInv 0) 1).dragging = none) := by
  refine ⟨?_, ⟨by decide, by decide⟩⟩
  simp only [clickSlot, hex, hd]
  rw [if_pos ⟨hsame, hroom⟩]
  refine ⟨rfl, ?_⟩
  by_cases hcase : d.count ≤ 999 - ex.count
  · have hmin : min (999 - ex.count) d.count = d.count := by omega
    rw [if_pos hcase]
    simp [hmin]
  · have hmin : min (999 - ex.count) d.count = 999 - ex.count := by omega
    rw [if_neg hcase]
    simp only [hmin]
    rw [if_neg (by omega : ¬ d.count - (999 - ex.count) ≤ 0)]

theorem click_slot_merge_witness :
    mergeInv.dragging = none ∧
    ((clickSlot (clickSlot mergeInv 0) 1).slots.getD 1 none =
        some ⟨BLOCK_DIRT, 8⟩ ∧
      (clickSlot (clickSlot mergeInv 0) 1).dragging = none) := by
  refine ⟨by decide, ?_⟩
  exact (click_slot_merge (clickSlot mergeInv 0) 1 ⟨BLOCK_DIRT, 3⟩
    ⟨BLOCK_DIRT, 5⟩ (by decide) (by decide) (by decide) (by decide)).2

/-- A well-formed slot: empty, or a stack whose count lies in `[1, 999]`. -/
def WfSlot : Option ItemStack → Prop
  | none => True
  | some st => 1 ≤ st.count ∧ st.count ≤ 999

instance : DecidablePred WfSlot := fun s => by
  cases s with
  | none => exact isTrue trivial
  | some st => exact inferInstanceAs (Decidable (_ ∧ _))

/-- The inventory state invariant of the spec: exactly 27 slots, every
occupied slot and the dragged stack (if any) have counts in `[1, 999]`. -/
def WfInv (inv : Inventory) : Prop :=
  inv.slots.length = 27 ∧ (∀ s ∈ inv.slots, WfSlot s) ∧ WfSlot inv.dragging

instance (inv : Inventory) : Decidable (WfInv inv) :=
  inferInstanceAs (Decidable (_ ∧ _ ∧ _))

theorem fillExisting_wf (bid : Int) (slots : List (Option ItemStack)) :
    ∀ rem : Int, 1 ≤ rem → (∀ s ∈ slots, WfSlot s) →
      (∀ s ∈ (fillExisting bid slots rem).1, WfSlot s) ∧
      (fillExisting bid slots rem).1.length = slots.length := by
  induction slots with
  | nil => intro rem _ _; simp [fillExisting]
  | cons hd tl ih =>
      intro rem hrem hwf
      have hwfhd := hwf hd (List.mem_cons_self _ _)
      have hwtl : ∀ s ∈ tl, WfSlot s :=
        fun s hs => hwf s (List.mem_cons_of_mem _ hs)
      match hd with
      | none =>
          obtain ⟨h1, h2⟩ := ih rem hrem hwtl
          rw [fillExisting]
          refine ⟨?_, by simpa using h2⟩
          intro s hs
          rcases List.mem_cons.mp hs with rfl | hs'
          · trivial
          · exact h1 s hs'
      | some st =>
          by_cases hm : st.block_id = bid ∧ st.count < 999
          · rw [fillExisting, if_pos hm]
            have hwfst : 1 ≤ st.count ∧ st.count ≤ 999 := hwfhd
            have hwfst' :
                WfSlot (some { st with
                  count := st.count + min (999 - st.count) rem }) :=
              show 1 ≤ st.count + min (999 - st.count) rem ∧
                  st.count + min (999 - st.count) rem ≤ 999 by
                obtain ⟨ha, hb⟩ := hwfst
                obtain ⟨_, hc⟩ := hm
                omega
            by_cases hz : rem - min (999 - st.count) rem = 0
            · rw [if_pos hz]
              refine ⟨?_, by simp⟩
              intro s hs
              rcases List.mem_cons.mp hs with rfl | hs'
              · exact hwfst'
              · exact hwtl s hs'
            · rw [if_neg hz]
              have hmin : min (999 - st.count) rem ≤ rem := min_le_right _ _
              obtain ⟨h1, h2⟩ :=
                ih (rem - min (999 - st.count) rem) (by omega) hwtl
              refine ⟨?_, by simpa using h2⟩
              intro s hs
              rcases List.mem_cons.mp hs with rfl | hs'
              · exact hwfst'
              · exact h1 s hs'
          · rw [fillExisting, if_neg hm]
            obtain ⟨h1, h2⟩ := ih rem hrem hwtl
            refine ⟨?_, by simpa using h2⟩
            intro s hs
            rcases List.mem_cons.mp hs with rfl | hs'
            · exact hwfhd
            · exact h1 s hs'

theorem fillEmpty_wf (bid : Int) (slots : List (Option ItemStack)) :
    ∀ rem : Int, 1 ≤ rem → (∀ s ∈ slots, WfSlot s) →
      (∀ s ∈ (fillEmpty bid slots rem).1, WfSlot s) ∧
      (fillEmpty bid slots rem).1.length = slots.length := by
  induction slots with
  | nil => intro rem _ _; simp [fillEmpty]
  | cons hd tl ih =>
      intro rem hrem hwf
      have hwfhd := hwf hd (List.mem_cons_self _ _)
      have hwtl : ∀ s ∈ tl, WfSlot s :=
        fun s hs => hwf s (List.mem_cons_of_mem _ hs)
      match hd with
      | none =>
          rw [fillEmpty]
          have hwfnew : WfSlot (some (⟨bid, min 999 rem⟩ : ItemStack)) :=
            show 1 ≤ min 999 rem ∧ min 999 rem ≤ 999 by omega
          by_cases hz : rem - min 999 rem = 0
          · rw [if_pos hz]
            refine ⟨?_, by simp⟩
            intro s hs
            rcases List.mem_cons.mp hs with rfl | hs'
            · exact hwfnew
            · exact hwtl s hs'
          · rw [if_neg hz]
            have hmin : min 999 rem ≤ rem := min_le_right _ _
            obtain ⟨h1, h2⟩ := ih (rem - min 999 rem) (by omega) hwtl
            refine ⟨?_, by simpa using h2⟩
            intro s hs
            rcases List.mem_cons.mp hs with rfl | hs'
            · exact hwfnew
            · exact h1 s hs'
      | some st =>
          rw [fillEmpty]
          obtain ⟨h1, h2⟩ := ih rem hrem hwtl
          refine ⟨?_, by simpa using h2⟩
          intro s hs
          rcases List.mem_cons.mp hs with rfl | hs'
          · exact hwfhd
          · exact h1 s hs'

theorem removeFrom_wf (bid : Int) (slots : List (Option ItemStack)) :
    ∀ rem : Int, 0 ≤ rem → (∀ s ∈ slots, WfSlot s) →
      (∀ s ∈ (removeFrom bid slots rem).1, WfSlot s) ∧
      (removeFrom bid slots rem).1.length = slots.length := by
  induction slots with
  | nil => intro rem _ _; simp [removeFrom]
  | cons hd tl ih =>
      intro rem hrem hwf
      have hwfhd := hwf hd (List.mem_cons_self _ _)
      have hwtl : ∀ s ∈ tl, WfSlot s :=
        fun s hs => hwf s (List.mem_cons_of_mem _ hs)
      match hd with
      | none =>
          obtain ⟨h1, h2⟩ := ih rem hrem hwtl
          rw [removeFrom]
          refine ⟨?_, by simpa using h2⟩
          intro s hs
          rcases List.mem_cons.mp hs with rfl | hs'
          · trivial
          · exact h1 s hs'
      | some st =>
          by_cases hm : st.block_id = bid
          · rw [removeFrom, if_pos hm]
            have hwfst : 1 ≤ st.count ∧ st.count ≤ 999 := hwfhd
            have hwfslot :
                WfSlot (if st.count - min st.count rem = 0 then none
                  else some { st with count := st.count - min st.count rem }) := by
              by_cases hc : st.count - min st.count rem = 0
              · rw [if_pos hc]; trivial
              · rw [if_neg hc]
                exact show 1 ≤ st.count - min st.count rem ∧
                    st.count - min st.count rem ≤ 999 by
                  obtain ⟨ha, hb⟩ := hwfst
                  omega
            by_cases hz : rem - min st.count rem = 0
            · rw [if_pos hz]
              refine ⟨?_, by
                by_cases hc : st.count - min st.count rem = 0 <;>
                  simp [hc]⟩
              intro s hs
              rcases List.mem_cons.mp hs with rfl | hs'
              · exact hwfslot
              · exact hwtl s hs'
            · rw [if_neg hz]
              have hmin : min st.count rem ≤ rem := min_le_right _ _
              obtain ⟨h1, h2⟩ := ih (rem - min st.count rem) (by omega) hwtl
              refine ⟨?_, by simpa using h2⟩
              intro s hs
              rcases List.mem_cons.mp hs with rfl | hs'
              · exact hwfslot
              · exact h1 s hs'
          · rw [removeFrom, if_neg hm]
            obtain ⟨h1, h2⟩ := ih rem hrem hwtl
            refine ⟨?_, by simpa using h2⟩
            intro s hs
            rcases List.mem_cons.mp hs with rfl | hs'
            · exact hwfhd
            · exact h1 s hs'

theorem wf_slots_set {slots : List (Option ItemStack)}
    (h : ∀ s ∈ slots, WfSlot s) (i : Nat) {v : Option ItemStack}
    (hv : WfSlot v) : ∀ s ∈ slots.set i v, WfSlot s := by
  intro s hs
  rcases List.mem_or_eq_of_mem_set hs with hs' | rfl
  · exact h s hs'
  · exact hv

theorem getD_mem_or {α : Type} (l : List α) (i : Nat) (d : α) :
    l.getD i d = d ∨ l.getD i d ∈ l := by
  by_cases h : i < l.length
  · right
    rw [List.getD_eq_getElem l d h]
    exact List.getElem_mem h
  · left
    exact List.getD_eq_default l d (by omega)

theorem wf_of_getD {slots : List (Option ItemStack)} {i : Nat}
    {st : ItemStack} (hslots : ∀ s ∈ slots, WfSlot s)
    (hgd : slots.getD i none = some st) :
    1 ≤ st.count ∧ st.count ≤ 999 := by
  rcases getD_mem_or slots i none with h | h
  · rw [hgd] at h
    cases h
  · rw [hgd] at h
    exact hslots _ h

theorem fillExisting_rem_nonneg (bid : Int)
    (slots : List (Option ItemStack)) :
    ∀ rem : Int, 0 ≤ rem → 0 ≤ (fillExisting bid slots rem).2 := by
  induction slots with
  | nil => intro rem h; simpa [fillExisting] using h
  | cons hd tl ih =>
      intro rem h
      match hd with
      | none => rw [fillExisting]; exact ih rem h
      | some st =>
          by_cases hm : st.block_id = bid ∧ st.count < 999
          · rw [fillExisting, if_pos hm]
            by_cases hz : rem - min (999 - st.count) rem = 0
            · rw [if_pos hz]
            · rw [if_neg hz]
              have : min (999 - st.count) rem ≤ rem := min_le_right _ _
              exact ih _ (by omega)
          · rw [fillExisting, if_neg hm]; exact ih rem h

/-- The well-formed inventory of the C8 counterexample: 998 DIRT in
slot 0. -/
def inv998 : Inventory :=
  ⟨(List.replicate 27 (none : Option ItemStack)).set 0
      (some ⟨BLOCK_DIRT, 998⟩), 0, none⟩

/-- **C8** (amended: `remove_items` restricted to non-negative counts):
from a well-formed inventory, `add_item` (any arguments),
`consume_selected` with `amount ≥ 1`, `remove_items` with `count ≥ 0` and
`click_slot` preserve the invariant: 27 slots, every occupied slot and the
dragged stack with count in `[1, 999]`. -/
theorem inventory_invariant (inv : Inventory) (bid acnt rcnt amount : Int)
    (idx : Nat) (hwf : WfInv inv) (hamount : 1 ≤ amount) (hr : 0 ≤ rcnt) :
    WfInv (addItem inv bid acnt).2 ∧
    WfInv (consumeSelected inv amount).2 ∧
    WfInv (removeItems inv bid rcnt).2 ∧
    WfInv (clickSlot inv idx) := by
  obtain ⟨hlen, hslots, hdrag⟩ := hwf
  refine ⟨?_, ?_, ?_, ?_⟩
  · -- add_item
    unfold addItem
    by_cases h0 : bid = BLOCK_AIR ∨ acnt ≤ 0
    · rw [if_pos h0]
      exact ⟨hlen, hslots, hdrag⟩
    · rw [if_neg h0]
      have hpos : 1 ≤ acnt := by
        rcases not_or.mp h0 with ⟨_, h⟩
        omega
      obtain ⟨h1, h1len⟩ := fillExisting_wf bid inv.slots acnt hpos hslots
      by_cases hz : (fillExisting bid inv.slots acnt).2 = 0
      · rw [if_pos hz]
        exact ⟨by rw [h1len]; exact hlen, h1, hdrag⟩
      · rw [if_neg hz]
        have hge : 0 ≤ (fillExisting bid inv.slots acnt).2 :=
          fillExisting_rem_nonneg bid inv.slots acnt (by omega)
        obtain ⟨h2, h2len⟩ := fillEmpty_wf bid
          (fillExisting bid inv.slots acnt).1
          (fillExisting bid inv.slots acnt).2 (by omega) h1
        exact ⟨by rw [h2len, h1len]; exact hlen, h2, hdrag⟩
  · -- consume_selected
    rcases hgd : inv.slots.getD inv.selected_hotbar none with _ | st
    · simp only [consumeSelected, hgd]
      exact ⟨hlen, hslots, hdrag⟩
    · simp only [consumeSelected, hgd]
      by_cases hlt : st.count < amount
      · rw [if_pos hlt]
        exact ⟨hlen, hslots, hdrag⟩
      · rw [if_neg hlt]
        have hwfst := wf_of_getD hslots hgd
        refine ⟨by simpa using hlen, ?_, hdrag⟩
        refine wf_slots_set hslots _ ?_
        by_cases hc : st.count - amount = 0
        · rw [if_pos hc]
          trivial
        · rw [if_neg hc]
          exact show 1 ≤ st.count - amount ∧ st.count - amount ≤ 999 by
            obtain ⟨ha, hb⟩ := hwfst
            omega
  · -- remove_items
    unfold removeItems
    by_cases hh : hasItems inv bid rcnt = true
    · rw [if_neg (by simp [hh])]
      obtain ⟨h1, h1len⟩ := removeFrom_wf bid inv.slots rcnt hr hslots
      exact ⟨by rw [h1len]; exact hlen, h1, hdrag⟩
    · rw [if_pos (by simpa using hh)]
      exact ⟨hlen, hslots, hdrag⟩
  · -- click_slot
    rcases hgd : inv.slots.getD idx none with _ | ex <;>
      rcases hdr : inv.dragging with _ | drag <;>
      simp only [clickSlot, hgd, hdr]
    · exact ⟨hlen, hslots, hdrag⟩
    · refine ⟨by simpa using hlen, ?_, by simp [WfSlot]⟩
      refine wf_slots_set hslots _ ?_
      rw [hdr] at hdrag
      exact hdrag
    · refine ⟨by simpa using hlen, ?_, ?_⟩
      · exact wf_slots_set hslots _ trivial
      · have := wf_of_getD hslots hgd
        exact this
    · have hwfex := wf_of_getD hslots hgd
      rw [hdr] at hdrag
      by_cases hm : ex.block_id = drag.block_id ∧ ex.count < 999
      · rw [if_pos hm]
        refine ⟨by simpa using hlen, ?_, ?_⟩
        · refine wf_slots_set hslots _ ?_
          exact show 1 ≤ ex.count + min (999 - ex.count) drag.count ∧
              ex.count + min (999 - ex.count) drag.count ≤ 999 by
            obtain ⟨ha, hb⟩ := hdrag
            obtain ⟨hc, hd⟩ := hwfex
            obtain ⟨_, hroom⟩ := hm
            omega
        · by_cases hdc : drag.count - min (999 - ex.count) drag.count ≤ 0
          · rw [if_pos hdc]
            trivial
          · rw [if_neg hdc]
            exact show
                1 ≤ drag.count - min (999 - ex.count) drag.count ∧
                drag.count - min (999 - ex.count) drag.count ≤ 999 by
              obtain ⟨ha, hb⟩ := hdrag
              omega
      · rw [if_neg hm]
        refine ⟨by simpa using hlen, ?_, ?_⟩
        · exact wf_slots_set hslots _ hdrag
        · exact hwfex

/-- **C8 counterexample**: `remove_items` with a negative count can push a
slot's count over the 999 cap: from the well-formed `inv998` (998 DIRT in
slot 0), `remove_items(DIRT, -5)` leaves 1003 in the slot, violating the
invariant the claim says every `remove_items` call preserves. -/
theorem inventory_invariant_cex :
    WfInv inv998 ∧ ¬ WfInv (removeItems inv998 BLOCK_DIRT (-5)).2 := by
  constructor
  · decide
  · decide

theorem inventory_invariant_witness :
    WfInv emptyInv ∧ (1 : Int) ≤ 1 ∧ (0 : Int) ≤ 0 ∧
    WfInv (clickSlot emptyInv 3) :=
  ⟨by decide, by decide, by decide,
    (inventory_invariant emptyInv BLOCK_DIRT 1 0 1 3 (by decide) (by decide)
      (by decide)).2.2.2⟩

theorem fillExisting_spec (bid : Int) (slots : List (Option ItemStack)) :
    ∀ rem : Int, 0 < rem →
      (fillExisting bid slots rem).2 =
        rem - min rem (capExisting slots bid) ∧
      totalCount (fillExisting bid slots rem).1 bid =
        totalCount slots bid + min rem (capExisting slots bid) ∧
      (∀ b, b ≠ bid →
        totalCount (fillExisting bid slots rem).1 b = totalCount slots b) ∧
      emptyCount (fillExisting bid slots rem).1 = emptyCount slots := by
  induction slots with
  | nil =>
      intro rem hrem
      refine ⟨?_, ?_, ?_, ?_⟩ <;> simp [fillExisting] <;> omega
  | cons hd tl ih =>
      intro rem hrem
      match hd with
      | none =>
          obtain ⟨h1, h2, h3, h4⟩ := ih rem hrem
          rw [fillExisting]
          refine ⟨by simpa using h1, by simpa using h2, ?_, by
            simpa using h4⟩
          intro b hb
          simpa using h3 b hb
      | some st =>
          have hcapnn : 0 ≤ capExisting tl bid := capExisting_nonneg tl bid
          by_cases hm : st.block_id = bid ∧ st.count < 999
          · rw [fillExisting, if_pos hm]
            obtain ⟨hmb, hmc⟩ := hm
            by_cases hz : rem - min (999 - st.count) rem = 0
            · rw [if_pos hz]
              refine ⟨?_, ?_, ?_, ?_⟩
              · show (0 : Int) = rem - min rem (capExisting (some st :: tl) bid)
                simp only [capExisting_cons_some, if_pos (And.intro hmb hmc)]
                omega
              · simp only [totalCount_cons_some, if_pos hmb,
                  capExisting_cons_some, if_pos (And.intro hmb hmc)]
                show st.count + min (999 - st.count) rem + totalCount tl bid =
                  st.count + totalCount tl bid +
                    min rem (999 - st.count + capExisting tl bid)
                omega
              · intro b hb
                have hne : st.block_id ≠ b := by rw [hmb]; exact fun h => hb h.symm
                simp only [totalCount_cons_some, if_neg hne]
              · simp only [emptyCount_cons_some]
            · rw [if_neg hz]
              have hlt : 999 - st.count < rem := by omega
              have hminEq : min (999 - st.count) rem = 999 - st.count := by
                omega
              rw [hminEq]
              obtain ⟨h1, h2, h3, h4⟩ := ih (rem - (999 - st.count)) (by omega)
              refine ⟨?_, ?_, ?_, ?_⟩
              · show (fillExisting bid tl (rem - (999 - st.count))).2 =
                  rem - min rem (capExisting (some st :: tl) bid)
                rw [h1]
                simp only [capExisting_cons_some, if_pos (And.intro hmb hmc)]
                omega
              · simp only [totalCount_cons_some, if_pos hmb,
                  capExisting_cons_some, if_pos (And.intro hmb hmc), h2]
                omega
              · intro b hb
                have hne : st.block_id ≠ b := by rw [hmb]; exact fun h => hb h.symm
                simp only [totalCount_cons_some, if_neg hne, h3 b hb]
              · simp only [emptyCount_cons_some, h4]
          · rw [fillExisting, if_neg hm]
            obtain ⟨h1, h2, h3, h4⟩ := ih rem hrem
            refine ⟨?_, ?_, ?_, ?_⟩
            · show (fillExisting bid tl rem).2 =
                rem - min rem (capExisting (some st :: tl) bid)
              rw [h1]
              simp only [capExisting_cons_some, if_neg hm]
              omega
            · simp only [totalCount_cons_some, capExisting_cons_some,
                if_neg hm, h2]
              omega
            · intro b hb
              simp only [totalCount_cons_some, h3 b hb]
            · simp only [emptyCount_cons_some, h4]

theorem fillEmpty_spec (bid : Int) (slots : List (Option ItemStack)) :
    ∀ rem : Int, 0 < rem →
      (fillEmpty bid slots rem).2 =
        rem - min rem (999 * emptyCount slots) ∧
      totalCount (fillEmpty bid slots rem).1 bid =
        totalCount slots bid + min rem (999 * emptyCount slots) ∧
      (∀ b, b ≠ bid →
        totalCount (fillEmpty bid slots rem).1 b = totalCount slots b) := by
  induction slots with
  | nil =>
      intro rem hrem
      refine ⟨?_, ?_, ?_⟩ <;> simp [fillEmpty] <;> omega
  | cons hd tl ih =>
      intro rem hrem
      match hd with
      | none =>
          have hnn : 0 ≤ emptyCount tl := emptyCount_nonneg tl
          rw [fillEmpty]
          by_cases hz : rem - min 999 rem = 0
          · rw [if_pos hz]
            refine ⟨?_, ?_, ?_⟩
            · show (0 : Int) =
                rem - min rem (999 * emptyCount (none :: tl))
              simp only [emptyCount_cons_none]
              have : 999 * (1 + emptyCount tl) = 999 + 999 * emptyCount tl := by
                ring
              omega
            · simp only [totalCount_cons_some, totalCount_cons_none,
                if_pos (rfl : bid = bid), if_true, emptyCount_cons_none]
              show min 999 rem + totalCount tl bid =
                totalCount tl bid + min rem (999 * (1 + emptyCount tl))
              have : 999 * (1 + emptyCount tl) = 999 + 999 * emptyCount tl := by
                ring
              omega
            · intro b hb
              have hne : bid ≠ b := fun h => hb h.symm
              simp only [totalCount_cons_some, totalCount_cons_none,
                if_neg hne]
              omega
          · rw [if_neg hz]
            have hgt : 999 < rem := by omega
            have hminEq : min 999 rem = (999 : Int) := by omega
            rw [hminEq]
            obtain ⟨h1, h2, h3⟩ := ih (rem - 999) (by omega)
            have hdist : 999 * (1 + emptyCount tl) =
                999 + 999 * emptyCount tl := by ring
            refine ⟨?_, ?_, ?_⟩
            · show (fillEmpty bid tl (rem - 999)).2 =
                rem - min rem (999 * emptyCount (none :: tl))
              rw [h1]
              simp only [emptyCount_cons_none, hdist]
              omega
            · simp only [totalCount_cons_some, if_pos (rfl : bid = bid),
                if_true, emptyCount_cons_none, totalCount_cons_none, h2,
                hdist]
              omega
            · intro b hb
              have hne : bid ≠ b := fun h => hb h.symm
              simp only [totalCount_cons_some, totalCount_cons_none,
                if_neg hne, h3 b hb]
              omega
      | some st =>
          rw [fillEmpty]
          obtain ⟨h1, h2, h3⟩ := ih rem hrem
          refine ⟨?_, ?_, ?_⟩
          · show (fillEmpty bid tl rem).2 =
              rem - min rem (999 * emptyCount (some st :: tl))
            rw [h1]
            simp only [emptyCount_cons_some]
          · simp only [totalCount_cons_some, emptyCount_cons_some, h2]
            omega
          · intro b hb
            simp only [totalCount_cons_some, h3 b hb]

/-- **C7**: `add_item` semantics.  Air or a non-positive count is rejected
with no change.  Otherwise the call places `min count cap` items of
`blockId` — first topping up existing same-type slots to at most 999 each,
then filling empty slots with new stacks of at most 999, where
`cap = addCap` is the total headroom — returns `True` exactly when all of
`count` was placed, keeps any partially placed amount when it returns
`False`, and leaves the totals of all other block ids unchanged. -/
theorem add_item_spec (inv : Inventory) (bid cnt : Int) :
    (bid = BLOCK_AIR ∨ cnt ≤ 0 → addItem inv bid cnt = (false, inv)) ∧
    (bid ≠ BLOCK_AIR → 0 < cnt →
      ((addItem inv bid cnt).1 = true ↔ cnt ≤ addCap inv.slots bid) ∧
      totalCount (addItem inv bid cnt).2.slots bid =
        totalCount inv.slots bid + min cnt (addCap inv.slots bid) ∧
      (∀ b, b ≠ bid → totalCount (addItem inv bid cnt).2.slots b =
        totalCount inv.slots b)) := by
  constructor
  · intro h
    rw [addItem, if_pos h]
  · intro hair hpos
    rw [addItem, if_neg (by push_neg; exact ⟨hair, by omega⟩)]
    obtain ⟨e1, e2, e3, e4⟩ := fillExisting_spec bid inv.slots cnt hpos
    have hcapE : 0 ≤ capExisting inv.slots bid := capExisting_nonneg _ _
    have hk : 0 ≤ emptyCount inv.slots := emptyCount_nonneg _
    by_cases hz : (fillExisting bid inv.slots cnt).2 = 0
    · rw [if_pos hz]
      have hle : cnt ≤ capExisting inv.slots bid := by
        rw [e1] at hz
        omega
      refine ⟨by simp [addCap]; omega, ?_, ?_⟩
      · show totalCount (fillExisting bid inv.slots cnt).1 bid =
          totalCount inv.slots bid + min cnt (addCap inv.slots bid)
        rw [e2]
        unfold addCap
        omega
      · intro b hb
        exact e3 b hb
    · rw [if_neg hz]
      have hz1 : 0 < (fillExisting bid inv.slots cnt).2 := by
        have := fillExisting_rem_nonneg bid inv.slots cnt (by omega)
        omega
      have hcaplt : capExisting inv.slots bid < cnt := by
        rw [e1] at hz
        omega
      obtain ⟨f1, f2, f3⟩ := fillEmpty_spec bid
        (fillExisting bid inv.slots cnt).1
        (fillExisting bid inv.slots cnt).2 hz1
      rw [e4] at f1 f2
      refine ⟨?_, ?_, ?_⟩
      · show decide ((fillEmpty bid (fillExisting bid inv.slots cnt).1
            (fillExisting bid inv.slots cnt).2).2 = 0) = true ↔
          cnt ≤ addCap inv.slots bid
        rw [decide_eq_true_eq, f1, e1]
        unfold addCap
        omega
      · show totalCount (fillEmpty bid (fillExisting bid inv.slots cnt).1
            (fillExisting bid inv.slots cnt).2).1 bid =
          totalCount inv.slots bid + min cnt (addCap inv.slots bid)
        rw [f2, e2, e1]
        unfold addCap
        omega
      · intro b hb
        show totalCount (fillEmpty bid (fillExisting bid inv.slots cnt).1
            (fillExisting bid inv.slots cnt).2).1 b = totalCount inv.slots b
        rw [f3 b hb, e3 b hb]

theorem add_item_spec_witness :
    BLOCK_DIRT ≠ BLOCK_AIR ∧ (0 : Int) < 5 ∧
    ((addItem emptyInv BLOCK_DIRT 5).1 = true ↔
      5 ≤ addCap emptyInv.slots BLOCK_DIRT) :=
  ⟨by decide, by decide,
    ((add_item_spec emptyInv BLOCK_DIRT 5).2 (by decide) (by decide)).1⟩

/-! ## World lemmas -/

/-- The chunk content computed by `generate_chunk` depends only on the
seed and the three world parameters, not on the already generated
chunks. -/
theorem chunkBlocks_congr (nm : NoiseModel) (w w' : World) (cx : Int)
    (h1 : w.seed = w'.seed) (h2 : w.chunk_size = w'.chunk_size)
    (h3 : w.height = w'.height) (h4 : w.base_surface = w'.base_surface) :
    chunkBlocks nm w cx = chunkBlocks nm w' cx := by
  cases w with
  | mk s c h b ch =>
      cases w' with
      | mk s' c' h' b' ch' =>
          simp only at h1 h2 h3 h4
          subst h1
          subst h2
          subst h3
          subst h4
          rfl

theorem generateChunk_seed (nm : NoiseModel) (w : World) (cx : Int) :
    (generateChunk nm w cx).seed = w.seed ∧
    (generateChunk nm w cx).chunk_size = w.chunk_size ∧
    (generateChunk nm w cx).height = w.height ∧
    (generateChunk nm w cx).base_surface = w.base_surface := by
  unfold generateChunk
  split <;> exact ⟨rfl, rfl, rfl, rfl⟩

theorem setBlock_fields (nm : NoiseModel) (w : World) (wx wy bid : Int) :
    (setBlock nm w wx wy bid).seed = w.seed ∧
    (setBlock nm w wx wy bid).chunk_size = w.chunk_size ∧
    (setBlock nm w wx wy bid).height = w.height ∧
    (setBlock nm w wx wy bid).base_surface = w.base_surface := by
  unfold setBlock
  split
  · exact ⟨rfl, rfl, rfl, rfl⟩
  · obtain ⟨h1, h2, h3, h4⟩ := generateChunk_seed nm w
      (Int.fdiv wx w.chunk_size)
    exact ⟨h1, h2, h3, h4⟩

theorem getBlock_fields (nm : NoiseModel) (w : World) (wx wy : Int) :
    (getBlock nm w wx wy).2.seed = w.seed ∧
    (getBlock nm w wx wy).2.chunk_size = w.chunk_size ∧
    (getBlock nm w wx wy).2.height = w.height ∧
    (getBlock nm w wx wy).2.base_surface = w.base_surface := by
  unfold getBlock
  split
  · exact ⟨rfl, rfl, rfl, rfl⟩
  · exact generateChunk_seed nm w (Int.fdiv wx w.chunk_size)

/-- After `generate_chunk`, the chunk is present: freshly computed when it
was absent, untouched when it already existed. -/
theorem dget_generateChunk (nm : NoiseModel) (w : World) (cx : Int) :
    dget (generateChunk nm w cx).chunks cx =
      if (dget w.chunks cx).isSome then dget w.chunks cx
      else some (chunkBlocks nm w cx) := by
  unfold generateChunk
  by_cases h : (dget w.chunks cx).isSome
  · rw [if_pos h, if_pos h]
  · rw [if_neg h, if_neg h]
    exact dget_dinsert w.chunks cx _

theorem generateChunk_eq_self {nm : NoiseModel} {w : World} {cx : Int}
    (h : (dget w.chunks cx).isSome) : generateChunk nm w cx = w := by
  unfold generateChunk
  rw [if_pos h]

theorem dget_generateChunk_ne (nm : NoiseModel) (w : World) (cx cx' : Int)
    (h : cx ≠ cx') :
    dget (generateChunk nm w cx).chunks cx' = dget w.chunks cx' := by
  unfold generateChunk
  split
  · rfl
  · exact dget_dinsert_ne w.chunks cx cx' _ h

/-- **C1**: chunk generation is deterministic.  On a fresh world the stored
mapping for chunk `cx` is exactly the pure function `chunkBlocks` of the
seed and the chunk index — so two fresh worlds with the same seed store the
same mapping — and a second `generate_chunk` call on any world is a no-op,
so regenerating before any mutation reproduces the same mapping. -/
theorem generate_chunk_deterministic (nm : NoiseModel) (seed cx : Int) :
    dget (generateChunk nm (freshWorld seed) cx).chunks cx =
      some (chunkBlocks nm (freshWorld seed) cx) ∧
    (∀ w : World,
      generateChunk nm (generateChunk nm w cx) cx = generateChunk nm w cx) := by
  constructor
  · rw [dget_generateChunk]
    simp [freshWorld, dget]
  · intro w
    have hsome : (dget (generateChunk nm w cx).chunks cx).isSome := by
      rw [dget_generateChunk]
      by_cases h : (dget w.chunks cx).isSome
      · rwa [if_pos h]
      · rw [if_neg h]
        rfl
    rw [generateChunk, if_pos hsome]

theorem mem_dinsert {α β : Type} [DecidableEq α] {m : List (α × β)}
    {k : α} {v : β} {p : α × β} (h : p ∈ dinsert m k v) :
    p ∈ m ∨ p = (k, v) := by
  induction m with
  | nil => simpa [dinsert] using h
  | cons hd tl ih =>
      obtain ⟨k0, v0⟩ := hd
      by_cases hk : k0 = k
      · rw [dinsert, if_pos hk] at h
        rcases List.mem_cons.mp h with rfl | h'
        · right
          rw [hk]
        · left
          exact List.mem_cons_of_mem _ h'
      · rw [dinsert, if_neg hk] at h
        rcases List.mem_cons.mp h with rfl | h'
        · left
          exact List.mem_cons_self _ _
        · rcases ih h' with h'' | h''
          · left
            exact List.mem_cons_of_mem _ h''
          · right
            exact h''

/-- Keys of any dict built by `dinsert` steps stay `Nodup`. -/
theorem nodup_chunkBlocks (nm : NoiseModel) (w : World) (cx : Int) :
    (dkeys (chunkBlocks nm w cx)).Nodup := by
  unfold chunkBlocks
  apply foldl_preserve (fun (b : Chunk) => (dkeys b).Nodup)
  · apply foldl_preserve (fun (b : Chunk) => (dkeys b).Nodup)
    · exact List.nodup_nil
    · intro b wx hb
      unfold terrainColumn
      apply foldl_preserve (fun (b : Chunk) => (dkeys b).Nodup) _ _ _ hb
      intro b' wy hb'
      unfold terrainCell
      dsimp only
      split
      · split
        · exact hb'
        · exact nodup_dkeys_dinsert _ _ _ hb'
      · exact nodup_dkeys_dinsert _ _ _ hb'
  · intro b wx hb
    unfold treeColumn
    split
    · apply foldl_preserve (fun (b : Chunk) => (dkeys b).Nodup)
      · apply foldl_preserve (fun (b : Chunk) => (dkeys b).Nodup) _ _ _ hb
        intro b' i hb'
        dsimp only
        split
        · exact nodup_dkeys_dinsert _ _ _ hb'
        · exact hb'
      · intro b' ox hb'
        apply foldl_preserve (fun (b : Chunk) => (dkeys b).Nodup) _ _ _ hb'
        intro b'' oy hb''
        dsimp only
        split
        · exact hb''
        · split
          · exact nodup_dkeys_dinsert _ _ _ hb''
          · exact hb''
    · exact hb

/-- Worlds whose dict representation is sound: a positive chunk width,
no duplicate chunk indices and no duplicate coordinates inside a chunk
(automatic for dicts in Python; an invariant of the model). -/
def WfWorld (w : World) : Prop :=
  0 < w.chunk_size ∧ (dkeys w.chunks).Nodup ∧
    ∀ p ∈ w.chunks, (dkeys p.2).Nodup

theorem generateChunk_wf {nm : NoiseModel} {w : World} (cx : Int)
    (hwf : WfWorld w) : WfWorld (generateChunk nm w cx) := by
  obtain ⟨h1, h2, h3⟩ := hwf
  unfold generateChunk
  split
  · exact ⟨h1, h2, h3⟩
  · refine ⟨h1, nodup_dkeys_dinsert _ _ _ h2, ?_⟩
    intro p hp
    rcases mem_dinsert hp with h' | h'
    · exact h3 p h'
    · rw [h']
      exact nodup_chunkBlocks nm w cx

theorem setBlock_wf {nm : NoiseModel} {w : World} (wx wy bid : Int)
    (hwf : WfWorld w) : WfWorld (setBlock nm w wx wy bid) := by
  unfold setBlock
  split
  · exact hwf
  · obtain ⟨h1, h2, h3⟩ := generateChunk_wf (Int.fdiv wx w.chunk_size) hwf
    refine ⟨h1, nodup_dkeys_dinsert _ _ _ h2, ?_⟩
    intro p hp
    rcases mem_dinsert hp with h' | h'
    · exact h3 p h'
    · rw [h']
      have hch : (dkeys ((dget (generateChunk nm w
          (Int.fdiv wx w.chunk_size)).chunks
          (Int.fdiv wx w.chunk_size)).getD [])).Nodup := by
        rcases hg : dget (generateChunk nm w
            (Int.fdiv wx w.chunk_size)).chunks
            (Int.fdiv wx w.chunk_size) with _ | ch
        · simp
        · simpa using h3 _ (mem_of_dget hg)
      split
      · exact nodup_dkeys_derase _ _ hch
      · exact nodup_dkeys_dinsert _ _ _ hch

theorem freshWorld_wf (seed : Int) : WfWorld (freshWorld seed) := by
  refine ⟨?_, ?_, ?_⟩
  · simp [freshWorld, CHUNK_SIZE]
  · simp [freshWorld]
  · intro p hp
    simp [freshWorld] at hp

theorem getBlock_after_setBlock (nm : NoiseModel) (w : World)
    (x y bid : Int) (hwf : WfWorld w) (hy1 : 0 ≤ y) (hy2 : y < w.height) :
    (getBlock nm (setBlock nm w x y bid) x y).1 =
      if bid = BLOCK_AIR then BLOCK_AIR else bid := by
  have hin : ¬(y < 0 ∨ w.height ≤ y) := by omega
  have hget :
      getBlock nm (setBlock nm w x y bid) x y =
        ((dget ((dget (setBlock nm w x y bid).chunks
            (Int.fdiv x w.chunk_size)).getD []) (x, y)).getD BLOCK_AIR,
          setBlock nm w x y bid) := by
    obtain ⟨hs, hcs, hh, hb⟩ := setBlock_fields nm w x y bid
    unfold getBlock
    rw [if_neg (by rw [hh]; exact hin)]
    dsimp only
    rw [hcs]
    have hsome : (dget (setBlock nm w x y bid).chunks
        (Int.fdiv x w.chunk_size)).isSome := by
      unfold setBlock
      rw [if_neg hin]
      dsimp only
      rw [dget_dinsert]
      rfl
    rw [generateChunk_eq_self hsome]
  have hchunks : (setBlock nm w x y bid).chunks =
      dinsert (generateChunk nm w (Int.fdiv x w.chunk_size)).chunks
        (Int.fdiv x w.chunk_size)
        (if bid = BLOCK_AIR then
          derase ((dget (generateChunk nm w
            (Int.fdiv x w.chunk_size)).chunks
            (Int.fdiv x w.chunk_size)).getD []) (x, y)
         else dinsert ((dget (generateChunk nm w
            (Int.fdiv x w.chunk_size)).chunks
            (Int.fdiv x w.chunk_size)).getD []) (x, y) bid) := by
    unfold setBlock
    rw [if_neg hin]
  have hchnd : (dkeys ((dget (generateChunk nm w
      (Int.fdiv x w.chunk_size)).chunks
      (Int.fdiv x w.chunk_size)).getD [])).Nodup := by
    obtain ⟨_, _, h3⟩ := generateChunk_wf (Int.fdiv x w.chunk_size) hwf
    rcases hg : dget (generateChunk nm w (Int.fdiv x w.chunk_size)).chunks
        (Int.fdiv x w.chunk_size) with _ | ch
    · simp
    · simpa using h3 _ (mem_of_dget hg)
  by_cases hbair : bid = BLOCK_AIR
  · rw [if_pos hbair, hget, hchunks, if_pos hbair]
    dsimp only
    rw [dget_dinsert]
    simp only [Option.getD_some]
    rw [dget_derase _ _ hchnd]
    rfl
  · rw [if_neg hbair, hget, hchunks, if_neg hbair]
    dsimp only
    rw [dget_dinsert]
    simp only [Option.getD_some]
    rw [dget_dinsert]
    rfl

/-- **C4**: write/read consistency of the block store (for any world with
sound dict state).  Out of the vertical range, `set_block` is a no-op and
`get_block` returns air; in range, setting air then reading gives air, and
setting a non-air id then reading gives exactly that id. -/
theorem set_get_block (nm : NoiseModel) (w : World) (x y b : Int)
    (hwf : WfWorld w) :
    ((y < 0 ∨ w.height ≤ y) →
      setBlock nm w x y b = w ∧ (getBlock nm w x y).1 = BLOCK_AIR) ∧
    (0 ≤ y → y < w.height →
      (getBlock nm (setBlock nm w x y BLOCK_AIR) x y).1 = BLOCK_AIR ∧
      (b ≠ BLOCK_AIR → (getBlock nm (setBlock nm w x y b) x y).1 = b)) := by
  constructor
  · intro hout
    constructor
    · rw [setBlock, if_pos hout]
    · rw [getBlock, if_pos hout]
  · intro hy1 hy2
    constructor
    · have := getBlock_after_setBlock nm w x y BLOCK_AIR hwf hy1 hy2
      rwa [if_pos rfl] at this
    · intro hbne
      have := getBlock_after_setBlock nm w x y b hwf hy1 hy2
      rwa [if_neg hbne] at this

/-- The constant noise model with `sin = cos = 1` used by concrete
witnesses. -/
def nmOne : NoiseModel :=
  { sin := fun _ => 1
    cos := fun _ => 1
    sin_lb := fun _ => by norm_num
    sin_ub := fun _ => le_refl 1
    cos_lb := fun _ => by norm_num
    cos_ub := fun _ => le_refl 1 }

theorem set_get_block_witness :
    WfWorld (freshWorld 5) ∧
    ((-3 : Int) < 0 ∨ (freshWorld 5).height ≤ -3 →
      setBlock nmOne (freshWorld 5) 2 (-3) BLOCK_STONE = freshWorld 5 ∧
      (getBlock nmOne (freshWorld 5) 2 (-3)).1 = BLOCK_AIR) :=
  ⟨freshWorld_wf 5,
    (set_get_block nmOne (freshWorld 5) 2 (-3) BLOCK_STONE
      (freshWorld_wf 5)).1⟩

/-- Fold preservation that also exposes membership of the element. -/
theorem foldl_preserve_mem {α β : Type} (P : α → Prop) (f : α → β → α)
    (l : List β) (init : α) (h0 : P init)
    (hstep : ∀ a b, b ∈ l → P a → P (f a b)) : P (l.foldl f init) := by
  induction l generalizing init with
  | nil => simpa using h0
  | cons hd tl ih =>
      exact ih _ (hstep _ _ (List.mem_cons_self _ _) h0)
        (fun a b hb => hstep a b (List.mem_cons_of_mem _ hb))

theorem noiseAt_nonneg (nm : NoiseModel) (seed : Int) (x scale salt : ℚ) :
    0 ≤ noiseAt nm seed x scale salt := by
  unfold noiseAt
  have h1 := nm.sin_lb (x / scale * 1.41 + ((seed : ℚ) + salt) * 0.0013)
  have h2 := nm.sin_lb (x / scale * 0.49 + ((seed : ℚ) + salt * 2.0) * 0.00071)
  have h3 := nm.cos_lb (x / scale * 2.21 + ((seed : ℚ) - salt) * 0.00191)
  dsimp only
  nlinarith

theorem pyInt_nonneg (q : ℚ) (h : 0 ≤ q) : 0 ≤ pyInt q := by
  unfold pyInt
  exact Int.tdiv_nonneg (Rat.num_nonneg.mpr h) (by positivity)

theorem surfaceHeight_bounds (nm : NoiseModel) (w : World) (wx : Int)
    (hh : 46 ≤ w.height) :
    22 ≤ surfaceHeight nm w wx ∧ surfaceHeight nm w wx ≤ w.height - 24 := by
  simp only [surfaceHeight]
  omega

/-- Every cell stored by `generate_chunk` lies in the valid row range
`[0, height)` (for the world heights the game uses; 180 for real worlds). -/
theorem chunkBlocks_row_bounds (nm : NoiseModel) (w : World) (cx : Int)
    (hh : 46 ≤ w.height) :
    ∀ p ∈ chunkBlocks nm w cx, 0 ≤ p.1.2 ∧ p.1.2 < w.height := by
  unfold chunkBlocks
  apply foldl_preserve (fun (b : Chunk) => ∀ p ∈ b, 0 ≤ p.1.2 ∧ p.1.2 < w.height)
  · apply foldl_preserve
      (fun (b : Chunk) => ∀ p ∈ b, 0 ≤ p.1.2 ∧ p.1.2 < w.height)
    · intro p hp
      simp at hp
    · intro b wx hb
      unfold terrainColumn
      dsimp only
      apply foldl_preserve_mem
        (fun (b : Chunk) => ∀ p ∈ b, 0 ≤ p.1.2 ∧ p.1.2 < w.height) _ _ _ hb
      intro b' wy hwy hb' p hp
      have hrange := mem_intRange.mp hwy
      have hsb := surfaceHeight_bounds nm w wx hh
      unfold terrainCell at hp
      dsimp only at hp
      split at hp
      · split at hp
        · exact hb' p hp
        · rcases mem_dinsert hp with h' | h'
          · exact hb' p h'
          · rw [h']
            constructor <;> dsimp only <;> omega
      · rcases mem_dinsert hp with h' | h'
        · exact hb' p h'
        · rw [h']
          constructor <;> dsimp only <;> omega
  · intro b wx hb
    unfold treeColumn
    dsimp only
    split
    · have htrunk : 0 ≤ pyInt (treeNoise nm w (wx * 2) * 3) := by
        apply pyInt_nonneg
        have := noiseAt_nonneg nm w.seed ((wx * 2 : Int) : ℚ) 13.0 999.0
        unfold treeNoise
        nlinarith
      have hsb := surfaceHeight_bounds nm w wx hh
      apply foldl_preserve_mem
        (fun (b : Chunk) => ∀ p ∈ b, 0 ≤ p.1.2 ∧ p.1.2 < w.height)
      · apply foldl_preserve_mem
          (fun (b : Chunk) => ∀ p ∈ b, 0 ≤ p.1.2 ∧ p.1.2 < w.height) _ _ _ hb
        intro b' i hi hb' p hp
        have hirange := mem_intRange.mp hi
        split at hp
        · rcases mem_dinsert hp with h' | h'
          · exact hb' p h'
          · rw [h']
            constructor <;> dsimp only <;> omega
        · exact hb' p hp
      · intro b' ox hox hb' p hp
        have hoxr := mem_intRange.mp hox
        refine foldl_preserve_mem
          (fun (b : Chunk) => ∀ p ∈ b, 0 ≤ p.1.2 ∧ p.1.2 < w.height)
          _ _ _ hb' ?_ p hp
        intro b'' oy hoy hb'' q hq
        have hoyr := mem_intRange.mp hoy
        split at hq
        · exact hb'' q hq
        · split at hq
          · rcases mem_dinsert hq with h' | h'
            · exact hb'' q h'
            · rw [h']
              constructor <;> dsimp only <;> omega
          · exact hb'' q hq
    · exact hb

/-- Lazy generation over a list of chunk indices preserves the world
parameters. -/
theorem foldGen_fields (nm : NoiseModel) (l : List Int) (w : World) :
    (l.foldl (fun a c => generateChunk nm a c) w).seed = w.seed ∧
    (l.foldl (fun a c => generateChunk nm a c) w).chunk_size = w.chunk_size ∧
    (l.foldl (fun a c => generateChunk nm a c) w).height = w.height ∧
    (l.foldl (fun a c => generateChunk nm a c) w).base_surface =
      w.base_surface := by
  exact foldl_preserve
    (fun a => a.seed = w.seed ∧ a.chunk_size = w.chunk_size ∧
      a.height = w.height ∧ a.base_surface = w.base_surface)
    (fun a c => generateChunk nm a c) l w ⟨rfl, rfl, rfl, rfl⟩
    (fun a c h => by
      obtain ⟨h1, h2, h3, h4⟩ := h
      obtain ⟨g1, g2, g3, g4⟩ := generateChunk_seed nm a c
      exact ⟨g1.trans h1, g2.trans h2, g3.trans h3, g4.trans h4⟩)

/-- The chunk mapping after generating a list of chunks: chunks already
present are untouched, chunks in the list are freshly generated from the
(unchanged) world parameters, everything else stays absent. -/
theorem foldGen_dget (nm : NoiseModel) (l : List Int) :
    ∀ (w : World) (cx : Int),
      dget (l.foldl (fun a c => generateChunk nm a c) w).chunks cx =
        if cx ∈ l ∧ dget w.chunks cx = none then
          some (chunkBlocks nm w cx)
        else dget w.chunks cx := by
  induction l with
  | nil =>
      intro w cx
      simp
  | cons c rest ih =>
      intro w cx
      rw [List.foldl_cons, ih (generateChunk nm w c) cx]
      obtain ⟨g1, g2, g3, g4⟩ := generateChunk_seed nm w c
      by_cases hcx : cx = c
      · subst hcx
        rw [dget_generateChunk]
        by_cases hp : (dget w.chunks cx).isSome
        · rw [if_pos hp]
          have hne : ¬ dget w.chunks cx = none :=
            Option.isSome_iff_ne_none.mp hp
          rw [if_neg (by tauto), if_neg (by tauto)]
        · rw [if_neg hp]
          have he : dget w.chunks cx = none :=
            Option.not_isSome_iff_eq_none.mp hp
          rw [if_neg (by simp), if_pos ⟨List.mem_cons_self _ _, he⟩]
      · rw [dget_generateChunk_ne nm w c cx (fun h => hcx h.symm)]
        have hcongr : chunkBlocks nm (generateChunk nm w c) cx =
            chunkBlocks nm w cx :=
          chunkBlocks_congr nm _ _ cx g1 g2 g3 g4
        rw [hcongr]
        have hiff : (cx ∈ rest ∧ dget w.chunks cx = none) ↔
            (cx ∈ c :: rest ∧ dget w.chunks cx = none) := by
          simp [List.mem_cons, hcx]
        exact if_congr hiff rfl rfl

/-- **C5** (amended: for blocks owned by the chunk that stores them).
On a fresh world, every cell `(wx, wy) ↦ bid` recorded in the chunk that
owns column `wx` and lying within the queried rectangle is yielded by
`iter_visible_blocks`, and `get_block` agrees with it, both on the world
the iteration returns and on the fresh world.  (Without the ownership
hypothesis the claim fails: tree blocks written across a chunk border are
yielded but `get_block` consults the neighbouring chunk — see the
counterexample.) -/
theorem iter_visible_blocks_agree (nm : NoiseModel)
    (seed minx maxx miny maxy wx wy bid cx : Int)
    (hown : cx = Int.fdiv wx CHUNK_SIZE)
    (hmem : dget (chunkBlocks nm (freshWorld seed) cx) (wx, wy) = some bid)
    (hx1 : minx ≤ wx) (hx2 : wx ≤ maxx) (hy1 : miny ≤ wy) (hy2 : wy ≤ maxy) :
    (wx, wy, bid) ∈
      (iterVisibleBlocks nm (freshWorld seed) minx maxx miny maxy).1 ∧
    (getBlock nm
      (iterVisibleBlocks nm (freshWorld seed) minx maxx miny maxy).2
      wx wy).1 = bid ∧
    (getBlock nm (freshWorld seed) wx wy).1 = bid := by
  have hcs : (freshWorld seed).chunk_size = CHUNK_SIZE := rfl
  have hgt16 : (0 : Int) < CHUNK_SIZE := by decide
  have hrange1 : Int.fdiv minx CHUNK_SIZE ≤ cx := by
    rw [hown, Int.fdiv_eq_ediv _ (by decide), Int.fdiv_eq_ediv _ (by decide)]
    exact Int.ediv_le_ediv hgt16 hx1
  have hrange2 : cx ≤ Int.fdiv maxx CHUNK_SIZE := by
    rw [hown, Int.fdiv_eq_ediv _ (by decide), Int.fdiv_eq_ediv _ (by decide)]
    exact Int.ediv_le_ediv hgt16 hx2
  have hrow : 0 ≤ wy ∧ wy < (freshWorld seed).height := by
    have := chunkBlocks_row_bounds nm (freshWorld seed) cx
      (by norm_num [freshWorld, WORLD_HEIGHT]) ((wx, wy), bid)
      (mem_of_dget hmem)
    exact this
  have hcxmem : cx ∈ intRange (Int.fdiv minx CHUNK_SIZE)
      (Int.fdiv maxx CHUNK_SIZE + 1) :=
    mem_intRange.mpr ⟨hrange1, by omega⟩
  have hup : dget ((intRange (Int.fdiv minx CHUNK_SIZE)
        (Int.fdiv maxx CHUNK_SIZE + 1)).foldl
        (fun a c => generateChunk nm a c) (freshWorld seed)).chunks cx =
      some (chunkBlocks nm (freshWorld seed) cx) := by
    rw [foldGen_dget]
    rw [if_pos ⟨hcxmem, by simp [freshWorld, dget]⟩]
  obtain ⟨f1, f2, f3, f4⟩ := foldGen_fields nm
    (intRange (Int.fdiv minx CHUNK_SIZE) (Int.fdiv maxx CHUNK_SIZE + 1))
    (freshWorld seed)
  refine ⟨?_, ?_, ?_⟩
  · unfold iterVisibleBlocks
    dsimp only
    rw [hcs]
    rw [List.mem_flatMap]
    refine ⟨cx, hcxmem, ?_⟩
    unfold ensureChunks
    rw [hup]
    simp only [Option.getD_some]
    exact List.mem_filterMap.mpr ⟨((wx, wy), bid), mem_of_dget hmem,
      by rw [if_pos ⟨hx1, hx2, hy1, hy2⟩]⟩
  · unfold iterVisibleBlocks
    dsimp only
    rw [hcs]
    unfold ensureChunks
    unfold getBlock
    rw [if_neg (by
      rw [f3]
      simp only [not_or, not_lt, not_le]
      exact ⟨hrow.1, hrow.2⟩)]
    dsimp only
    rw [f2, hcs, ← hown]
    have hsome : (dget ((intRange (Int.fdiv minx CHUNK_SIZE)
        (Int.fdiv maxx CHUNK_SIZE + 1)).foldl
        (fun a c => generateChunk nm a c) (freshWorld seed)).chunks
        cx).isSome := by
      rw [hup]
      rfl
    rw [generateChunk_eq_self hsome, hup]
    simp only [Option.getD_some]
    rw [hmem]
    rfl
  · unfold getBlock
    rw [if_neg (by
      simp only [not_or, not_lt, not_le]
      exact ⟨hrow.1, hrow.2⟩)]
    dsimp only
    rw [hcs, ← hown]
    rw [dget_generateChunk]
    rw [if_neg (by simp [freshWorld, dget])]
    simp only [Option.getD_some]
    rw [hmem]
    rfl

/- Batteries marks the `Rat` arithmetic `@[irreducible]`, which blocks
kernel evaluation of the concrete terrain computations below; restore the
default reducibility so `decide` can evaluate them. -/
set_option allowUnsafeReducibility true in
attribute [semireducible] Rat.mul Rat.inv Rat.add Rat.sub Rat.ofScientific

/-- A valid noise model (all values in `[-1, 1]`) that makes seed 0 grow a
tree at column 0, whose crown spills two columns into chunk `-1`'s span:
`sin`/`cos` are 1 everywhere except at the three inputs `_tree_noise`
evaluates for column 1, making `_tree_noise 0 > 0.84` and
`_tree_noise 1 < 0.6`. -/
def cexNoise : NoiseModel :=
  { sin := fun x =>
      if x = 141 / 1300 + 12987 / 10000 ∨ x = 49 / 1300 + 141858 / 100000
      then 0 else 1
    cos := fun x => if x = 221 / 1300 - 190809 / 100000 then 0 else 1
    sin_lb := fun x => by dsimp only; split <;> norm_num
    sin_ub := fun x => by dsimp only; split <;> norm_num
    cos_lb := fun x => by dsimp only; split <;> norm_num
    cos_ub := fun x => by dsimp only; split <;> norm_num }

set_option maxRecDepth 1000000 in
set_option maxHeartbeats 4000000 in
/-- **C5 counterexample**: on the fresh world with seed 0 under `cexNoise`,
`iter_visible_blocks (-2, 0) × (87, 87)` yields the tree-crown block
`(-2, 87) ↦ WOOD` (stored in chunk 0, which generated the tree), but
`get_block (-2, 87)` consults chunk `-1` and returns AIR: a yielded triple
on which the point query disagrees, refuting the unrestricted claim. -/
theorem iter_visible_blocks_cex :
    ((-2 : Int), (87 : Int), BLOCK_WOOD) ∈
      (iterVisibleBlocks cexNoise (freshWorld 0) (-2) 0 87 87).1 ∧
    (getBlock cexNoise
      (iterVisibleBlocks cexNoise (freshWorld 0) (-2) 0 87 87).2
      (-2) 87).1 = BLOCK_AIR ∧
    BLOCK_AIR ≠ BLOCK_WOOD := by
  refine ⟨by decide, by decide, by decide⟩

set_option maxRecDepth 1000000 in
set_option maxHeartbeats 4000000 in
theorem iter_visible_blocks_agree_witness :
    (0 : Int) = Int.fdiv 0 CHUNK_SIZE ∧
    ((0 : Int), (95 : Int), BLOCK_DIRT) ∈
      (iterVisibleBlocks nmOne (freshWorld 0) 0 0 95 95).1 :=
  ⟨by decide,
    (iter_visible_blocks_agree nmOne 0 0 0 95 95 0 95 BLOCK_DIRT 0
      (by decide) (by decide) (by decide) (by decide) (by decide)
      (by decide)).1⟩

/-! ## Serialization

`to_dict`/`from_dict` exchange a JSON-like structure.  `PyVal` models the
Python value universe the two functions touch (numbers, strings, lists,
dicts, `None`); floats and bools do not occur in saved worlds and are left
out.  `intToStr` models Python `str()` on an integer and `strToInt` models
`int()` on a string (sign and digits; the whitespace/underscore liberality
of `int()` is irrelevant to round-trips, which only parse `str()` output).
-/

def digitChar (d : Nat) : Char := Char.ofNat (48 + d)

def natToChars (n : Nat) : List Char :=
  if n < 10 then [digitChar n]
  else natToChars (n / 10) ++ [digitChar (n % 10)]
decreasing_by exact Nat.div_lt_self (by omega) (by omega)

/-- Python `str(n)` for an int: decimal digits, `-` sign for negatives. -/
def intToStr (n : Int) : String :=
  if n < 0 then ⟨'-' :: natToChars n.natAbs⟩ else ⟨natToChars n.toNat⟩

def digitVal (c : Char) : Nat := c.toNat - 48

def parseDigits (cs : List Char) : Option Nat :=
  if cs = [] then none
  else if cs.all Char.isDigit
  then some (cs.foldl (fun a c => a * 10 + digitVal c) 0)
  else none

def strToIntAux : List Char → Option Int
  | [] => none
  | c :: rest =>
      if c = '-' then (parseDigits rest).map (fun n => -(n : Int))
      else if c = '+' then (parseDigits rest).map (fun n => (n : Int))
      else (parseDigits (c :: rest)).map (fun n => (n : Int))

/-- Python `int(s)` for a string: an optional sign followed by digits. -/
def strToInt (s : String) : Option Int := strToIntAux s.data

theorem natToChars_ne_nil (n : Nat) : natToChars n ≠ [] := by
  rw [natToChars]
  split
  · simp
  · simp

theorem digitChar_isDigit : ∀ d : Nat, d < 10 → (digitChar d).isDigit := by
  decide

theorem digitVal_digitChar : ∀ d : Nat, d < 10 → digitVal (digitChar d) = d := by
  decide

theorem natToChars_digits (n : Nat) : ∀ c ∈ natToChars n, c.isDigit := by
  induction n using Nat.strong_induction_on with
  | _ n ih =>
      rw [natToChars]
      by_cases h : n < 10
      · rw [if_pos h]
        intro c hc
        rcases List.mem_singleton.mp hc with rfl
        exact digitChar_isDigit n h
      · rw [if_neg h]
        intro c hc
        rcases List.mem_append.mp hc with h' | h'
        · exact ih (n / 10) (Nat.div_lt_self (by omega) (by omega)) c h'
        · rcases List.mem_singleton.mp h' with rfl
          exact digitChar_isDigit _ (Nat.mod_lt _ (by omega))

theorem parseDigits_natToChars (n : Nat) :
    parseDigits (natToChars n) = some n := by
  have key : ∀ m : Nat, (natToChars m).all Char.isDigit = true ∧
      (natToChars m).foldl (fun a c => a * 10 + digitVal c) 0 = m := by
    intro m
    induction m using Nat.strong_induction_on with
    | _ m ih =>
        constructor
        · rw [List.all_eq_true]
          intro c hc
          exact natToChars_digits m c hc
        · rw [natToChars]
          by_cases h : m < 10
          · rw [if_pos h]
            simp only [List.foldl_cons, List.foldl_nil]
            have := digitVal_digitChar m h
            omega
          · rw [if_neg h]
            rw [List.foldl_append]
            obtain ⟨_, ih2⟩ := ih (m / 10) (Nat.div_lt_self (by omega) (by omega))
            rw [ih2]
            simp only [List.foldl_cons, List.foldl_nil]
            have := digitVal_digitChar (m % 10) (Nat.mod_lt _ (by omega))
            omega
  obtain ⟨h1, h2⟩ := key n
  rw [parseDigits, if_neg (natToChars_ne_nil n), if_pos h1, h2]

theorem strToInt_intToStr (n : Int) : strToInt (intToStr n) = some n := by
  by_cases hn : n < 0
  · rw [intToStr, if_pos hn]
    show strToIntAux ('-' :: natToChars n.natAbs) = some n
    rw [strToIntAux, if_pos rfl, parseDigits_natToChars]
    show some (-(n.natAbs : Int)) = some n
    congr 1
    omega
  · rw [intToStr, if_neg hn]
    show strToIntAux (natToChars n.toNat) = some n
    rcases he : natToChars n.toNat with _ | ⟨c, cs⟩
    · exact absurd he (natToChars_ne_nil _)
    · have hcdig : c.isDigit := natToChars_digits n.toNat c (by
        rw [he]
        exact List.mem_cons_self _ _)
      have hc45 : ¬ c = '-' := by
        intro hc
        rw [hc] at hcdig
        exact absurd hcdig (by decide)
      have hc43 : ¬ c = '+' := by
        intro hc
        rw [hc] at hcdig
        exact absurd hcdig (by decide)
      rw [strToIntAux, if_neg hc45, if_neg hc43, ← he,
        parseDigits_natToChars]
      show some ((n.toNat : Int)) = some n
      congr 1
      omega

/-- The Python value universe exchanged by `to_dict`/`from_dict`:
`None`, ints, strings, lists and dicts.  (Floats and booleans never occur
in saved worlds.) -/
inductive PyVal where
  | none : PyVal
  | int (n : Int) : PyVal
  | str (s : String) : PyVal
  | list (xs : List PyVal) : PyVal
  | dict (xs : List (PyVal × PyVal)) : PyVal

/-- `data.get(k)` for a string key `k`: Python `str` equality only ever
matches another `str`, so keys of other types are skipped. -/
def pyGetStr (d : List (PyVal × PyVal)) (k : String) : Option PyVal :=
  match d with
  | [] => none
  | (PyVal.str s, v) :: rest => if s = k then some v else pyGetStr rest k
  | _ :: rest => pyGetStr rest k

/-- `_as_int(value, default)`: the value if it is an int, else the
default. -/
def asIntV : PyVal → Int → Int
  | PyVal.int n, _ => n
  | _, d => d

/-- Python `int(x)` on a saved value: ints pass through, strings are
parsed, everything else raises. -/
def pyToInt : PyVal → Except Unit Int
  | PyVal.int n => Except.ok n
  | PyVal.str s =>
      match strToInt s with
      | some n => Except.ok n
      | Option.none => Except.error ()
  | _ => Except.error ()

/-- `World.to_dict`. -/
def worldToDict (w : World) : PyVal :=
  PyVal.dict
    [ (PyVal.str "seed", PyVal.int w.seed),
      (PyVal.str "chunk_size", PyVal.int w.chunk_size),
      (PyVal.str "height", PyVal.int w.height),
      (PyVal.str "chunks", PyVal.dict (w.chunks.map (fun p =>
        (PyVal.str (intToStr p.1),
          PyVal.list (p.2.map (fun q =>
            PyVal.list [PyVal.int q.1.1, PyVal.int q.1.2,
              PyVal.int q.2])))))) ]

/-- One entry of the per-chunk loop of `World.from_dict`: entries that are
not lists of length 3 are skipped; `int()` coercion of the three elements
can raise. -/
def chunkEntryStep (ch : Chunk) (e : PyVal) : Except Unit Chunk :=
  match e with
  | PyVal.list [a, b, c] => do
      let wx ← pyToInt a
      let wy ← pyToInt b
      let bid ← pyToInt c
      pure (dinsert ch (wx, wy) bid)
  | _ => pure ch

/-- The per-chunk entry loop of `World.from_dict`. -/
def parseChunkEntries : PyVal → Except Unit Chunk
  | PyVal.list es => es.foldlM chunkEntryStep []
  | _ => pure []

/-- One `(key, entries)` item of the chunks loop of `World.from_dict`:
`int(key)` can raise. -/
def chunkPairStep (acc : List (Int × Chunk)) (kv : PyVal × PyVal) :
    Except Unit (List (Int × Chunk)) := do
  let cx ← pyToInt kv.1
  let ch ← parseChunkEntries kv.2
  pure (dinsert acc cx ch)

/-- `World.from_dict`.  `dseed` stands for the `random.randint` default
taken when the `"seed"` key is absent.  `int(key)` on a chunk key can
raise, as can the element coercions inside `parseChunkEntries`; a raise
aborts the whole load (`Except.error`). -/
def worldFromDict (v : PyVal) (dseed : Int) : Except Unit World :=
  match v with
  | PyVal.dict d =>
      let seed := asIntV ((pyGetStr d "seed").getD (PyVal.int dseed)) 0
      let cs := asIntV ((pyGetStr d "chunk_size").getD
        (PyVal.int CHUNK_SIZE)) CHUNK_SIZE
      let h := asIntV ((pyGetStr d "height").getD
        (PyVal.int WORLD_HEIGHT)) WORLD_HEIGHT
      let base : World :=
        { freshWorld seed with chunk_size := cs, height := h, chunks := [] }
      match (pyGetStr d "chunks").getD (PyVal.dict []) with
      | PyVal.dict rcs => do
          let chunks ← rcs.foldlM chunkPairStep []
          pure { base with chunks := chunks }
      | _ => pure base
  | _ => Except.error ()

/-- The serialized form of one stored cell. -/
def cellToVal (q : (Int × Int) × Int) : PyVal :=
  PyVal.list [PyVal.int q.1.1, PyVal.int q.1.2, PyVal.int q.2]

/-- The serialized form of one chunk dict entry. -/
def chunkToVal (p : Int × Chunk) : PyVal × PyVal :=
  (PyVal.str (intToStr p.1), PyVal.list (p.2.map cellToVal))

theorem exc_bind_ok {ε α β : Type} (a : α) (f : α → Except ε β) :
    (Except.ok a >>= f) = f a := rfl

theorem chunkEntryStep_cell (ch : Chunk) (q : (Int × Int) × Int) :
    chunkEntryStep ch (cellToVal q) =
      Except.ok (dinsert ch (q.1.1, q.1.2) q.2) :=
  rfl

theorem foldlM_entries (rest : Chunk) :
    ∀ acc : Chunk, (dkeys (acc ++ rest)).Nodup →
      (rest.map cellToVal).foldlM chunkEntryStep acc =
        Except.ok (acc ++ rest) := by
  induction rest with
  | nil =>
      intro acc h
      simp only [List.map_nil, List.foldlM_nil, List.append_nil]
      rfl
  | cons q rest ih =>
      intro acc h
      rw [List.map_cons, List.foldlM_cons, chunkEntryStep_cell, exc_bind_ok]
      have hkeys : dkeys (acc ++ q :: rest) =
          dkeys acc ++ (q.1 :: dkeys rest) := by
        simp [dkeys]
      have hnotin : (q.1.1, q.1.2) ∉ dkeys acc := by
        intro hmem
        rw [hkeys] at h
        exact (List.disjoint_of_nodup_append h) hmem
          (List.mem_cons_self _ _)
      have hq : (q.1.1, q.1.2) = q.1 := rfl
      rw [hq, dinsert_eq_append _ hnotin]
      have hassoc : (acc ++ [q]) ++ rest = acc ++ q :: rest := by
        rw [List.append_assoc]
        rfl
      rw [ih (acc ++ [q]) (by rw [hassoc]; exact h), hassoc]

theorem parseChunkEntries_chunk (ch : Chunk) (hnd : (dkeys ch).Nodup) :
    parseChunkEntries (PyVal.list (ch.map cellToVal)) = Except.ok ch := by
  rw [parseChunkEntries]
  exact foldlM_entries ch [] (by simpa using hnd)

theorem chunkPairStep_chunk (acc : List (Int × Chunk)) (p : Int × Chunk)
    (hnd : (dkeys p.2).Nodup) :
    chunkPairStep acc (chunkToVal p) = Except.ok (dinsert acc p.1 p.2) := by
  rw [chunkPairStep, chunkToVal]
  show (pyToInt (PyVal.str (intToStr p.1)) >>= fun cx =>
    parseChunkEntries (PyVal.list (p.2.map cellToVal)) >>= fun ch =>
      pure (dinsert acc cx ch)) = Except.ok (dinsert acc p.1 p.2)
  rw [show pyToInt (PyVal.str (intToStr p.1)) = Except.ok p.1 by
    rw [pyToInt, strToInt_intToStr]]
  rw [exc_bind_ok, parseChunkEntries_chunk p.2 hnd, exc_bind_ok]
  rfl

theorem foldlM_chunks (m : List (Int × Chunk)) :
    ∀ acc : List (Int × Chunk), (dkeys (acc ++ m)).Nodup →
      (∀ p ∈ m, (dkeys p.2).Nodup) →
      (m.map chunkToVal).foldlM chunkPairStep acc =
        Except.ok (acc ++ m) := by
  induction m with
  | nil =>
      intro acc h _
      simp only [List.map_nil, List.foldlM_nil, List.append_nil]
      rfl
  | cons p m ih =>
      intro acc h hch
      rw [List.map_cons, List.foldlM_cons,
        chunkPairStep_chunk acc p (hch p (List.mem_cons_self _ _)),
        exc_bind_ok]
      have hkeys : dkeys (acc ++ p :: m) =
          dkeys acc ++ (p.1 :: dkeys m) := by
        simp [dkeys]
      have hnotin : p.1 ∉ dkeys acc := by
        intro hmem
        rw [hkeys] at h
        exact (List.disjoint_of_nodup_append h) hmem
          (List.mem_cons_self _ _)
      rw [dinsert_eq_append _ hnotin]
      have hassoc : (acc ++ [p]) ++ m = acc ++ p :: m := by
        rw [List.append_assoc]
        rfl
      rw [ih (acc ++ [p]) (by rw [hassoc]; exact h)
        (fun q hq => hch q (List.mem_cons_of_mem _ hq)), hassoc]

/-- The worlds the program actually builds: game parameters (chunk width
16, height 180, base surface 72) and sound dict state. -/
def StdWorld (w : World) : Prop :=
  w.chunk_size = CHUNK_SIZE ∧ w.height = WORLD_HEIGHT ∧
  w.base_surface = 72 ∧ (dkeys w.chunks).Nodup ∧
  ∀ p ∈ w.chunks, (dkeys p.2).Nodup

/-- Worlds reachable through the public `World` operations from a fresh
world ("any seed, any set of generated chunks, after any sequence of
mutations"). -/
inductive Reachable (nm : NoiseModel) : World → Prop where
  | fresh (seed : Int) : Reachable nm (freshWorld seed)
  | gen {w : World} (cx : Int) :
      Reachable nm w → Reachable nm (generateChunk nm w cx)
  | ensure {w : World} (a b : Int) :
      Reachable nm w → Reachable nm (ensureChunks nm w a b)
  | set {w : World} (x y bid : Int) :
      Reachable nm w → Reachable nm (setBlock nm w x y bid)
  | get {w : World} (x y : Int) :
      Reachable nm w → Reachable nm ((getBlock nm w x y).2)
  | iter {w : World} (a b c d : Int) :
      Reachable nm w → Reachable nm ((iterVisibleBlocks nm w a b c d).2)

theorem stdWorld_wf {w : World} (h : StdWorld w) : WfWorld w :=
  ⟨by rw [h.1]; decide, h.2.2.2.1, h.2.2.2.2⟩

theorem stdWorld_generateChunk {nm : NoiseModel} {w : World} (cx : Int)
    (h : StdWorld w) : StdWorld (generateChunk nm w cx) := by
  obtain ⟨g1, g2, g3, g4⟩ := generateChunk_seed nm w cx
  obtain ⟨_, n1, n2⟩ := generateChunk_wf cx (stdWorld_wf h)
  exact ⟨g2.trans h.1, g3.trans h.2.1, g4.trans h.2.2.1, n1, n2⟩

theorem stdWorld_setBlock {nm : NoiseModel} {w : World} (x y bid : Int)
    (h : StdWorld w) : StdWorld (setBlock nm w x y bid) := by
  obtain ⟨g1, g2, g3, g4⟩ := setBlock_fields nm w x y bid
  obtain ⟨_, n1, n2⟩ := setBlock_wf x y bid (stdWorld_wf h)
  exact ⟨g2.trans h.1, g3.trans h.2.1, g4.trans h.2.2.1, n1, n2⟩

theorem stdWorld_ensureChunks {nm : NoiseModel} {w : World} (a b : Int)
    (h : StdWorld w) : StdWorld (ensureChunks nm w a b) := by
  unfold ensureChunks
  exact foldl_preserve StdWorld _ _ w h
    (fun w' cx h' => stdWorld_generateChunk cx h')

theorem getBlock_snd_cases (nm : NoiseModel) (w : World) (x y : Int) :
    (getBlock nm w x y).2 = w ∨
    (getBlock nm w x y).2 = generateChunk nm w (Int.fdiv x w.chunk_size) := by
  unfold getBlock
  split
  · left
    rfl
  · right
    rfl

theorem iterVisibleBlocks_snd (nm : NoiseModel) (w : World)
    (a b c d : Int) :
    (iterVisibleBlocks nm w a b c d).2 =
      ensureChunks nm w (Int.fdiv a w.chunk_size)
        (Int.fdiv b w.chunk_size) := rfl

theorem reachable_std {nm : NoiseModel} {w : World} (h : Reachable nm w) :
    StdWorld w := by
  induction h with
  | fresh seed =>
      refine ⟨rfl, rfl, rfl, by simp [freshWorld], ?_⟩
      intro p hp
      simp [freshWorld] at hp
  | gen cx _ ih => exact stdWorld_generateChunk cx ih
  | ensure a b _ ih => exact stdWorld_ensureChunks a b ih
  | set x y bid _ ih => exact stdWorld_setBlock x y bid ih
  | get x y _ ih =>
      rcases getBlock_snd_cases nm _ x y with h' | h' <;> rw [h']
      · exact ih
      · exact stdWorld_generateChunk _ ih
  | iter a b c d _ ih =>
      rw [iterVisibleBlocks_snd]
      exact stdWorld_ensureChunks _ _ ih

theorem worldFromDict_worldToDict (w : World) (dseed : Int)
    (h : StdWorld w) : worldFromDict (worldToDict w) dseed = Except.ok w := by
  obtain ⟨hcs, hh, hb, hnd, hch⟩ := h
  have hmap : w.chunks.map (fun p =>
      (PyVal.str (intToStr p.1),
        PyVal.list (p.2.map (fun q =>
          PyVal.list [PyVal.int q.1.1, PyVal.int q.1.2, PyVal.int q.2]))))
      = w.chunks.map chunkToVal := rfl
  rw [worldToDict, hmap, worldFromDict]
  have e1 : pyGetStr
      [(PyVal.str "seed", PyVal.int w.seed),
        (PyVal.str "chunk_size", PyVal.int w.chunk_size),
        (PyVal.str "height", PyVal.int w.height),
        (PyVal.str "chunks", PyVal.dict (w.chunks.map chunkToVal))]
      "seed" = some (PyVal.int w.seed) := rfl
  have e2 : pyGetStr
      [(PyVal.str "seed", PyVal.int w.seed),
        (PyVal.str "chunk_size", PyVal.int w.chunk_size),
        (PyVal.str "height", PyVal.int w.height),
        (PyVal.str "chunks", PyVal.dict (w.chunks.map chunkToVal))]
      "chunk_size" = some (PyVal.int w.chunk_size) := rfl
  have e3 : pyGetStr
      [(PyVal.str "seed", PyVal.int w.seed),
        (PyVal.str "chunk_size", PyVal.int w.chunk_size),
        (PyVal.str "height", PyVal.int w.height),
        (PyVal.str "chunks", PyVal.dict (w.chunks.map chunkToVal))]
      "height" = some (PyVal.int w.height) := rfl
  have e4 : pyGetStr
      [(PyVal.str "seed", PyVal.int w.seed),
        (PyVal.str "chunk_size", PyVal.int w.chunk_size),
        (PyVal.str "height", PyVal.int w.height),
        (PyVal.str "chunks", PyVal.dict (w.chunks.map chunkToVal))]
      "chunks" = some (PyVal.dict (w.chunks.map chunkToVal)) := rfl
  rw [e4]
  dsimp only [Option.getD_some]
  rw [e1, e2, e3]
  dsimp only [asIntV, Option.getD_some, freshWorld]
  rw [foldlM_chunks w.chunks [] (by simpa using hnd) hch, exc_bind_ok,
    List.nil_append]
  cases w with
  | mk s c hgt b ch =>
      simp only at hb
      rw [hb]
      rfl

/-- **C2**: serialization round-trips.  For every world reachable through
the `World` operations (any seed, any generated chunks, any `set_block`
mutations), `from_dict (to_dict w)` restores an identical world — same
seed, chunk width, height and per-chunk contents.  In particular, after
`seed = 77` and `set_block(CHUNK_SIZE + 2, 40, STONE)`, the restored world
still reads STONE at `(CHUNK_SIZE + 2, 40)`. -/
theorem world_serialization_roundtrip (nm : NoiseModel) (w : World)
    (dseed : Int) (hw : Reachable nm w) :
    worldFromDict (worldToDict w) dseed = Except.ok w ∧
    (worldFromDict (worldToDict (setBlock nm (freshWorld 77)
        (CHUNK_SIZE + 2) 40 BLOCK_STONE)) dseed =
      Except.ok (setBlock nm (freshWorld 77) (CHUNK_SIZE + 2) 40
        BLOCK_STONE) ∧
      (getBlock nm (setBlock nm (freshWorld 77) (CHUNK_SIZE + 2) 40
        BLOCK_STONE) (CHUNK_SIZE + 2) 40).1 = BLOCK_STONE) := by
  refine ⟨worldFromDict_worldToDict w dseed (reachable_std hw), ?_, ?_⟩
  · exact worldFromDict_worldToDict _ dseed
      (reachable_std (Reachable.set _ _ _ (Reachable.fresh 77)))
  · have h := getBlock_after_setBlock nm (freshWorld 77) (CHUNK_SIZE + 2)
      40 BLOCK_STONE (freshWorld_wf 77) (by norm_num)
      (by norm_num [freshWorld, WORLD_HEIGHT])
    rwa [if_neg (by norm_num [BLOCK_STONE, BLOCK_AIR])] at h

theorem world_serialization_roundtrip_witness :
    worldFromDict (worldToDict (freshWorld 5)) 0 =
      Except.ok (freshWorld 5) :=
  (world_serialization_roundtrip nmOne (freshWorld 5) 0
    (Reachable.fresh 5)).1

/-- A chunk entry `from_dict` can process without raising: anything that
is not a length-3 list (it is skipped), or a length-3 list whose elements
all coerce with `int()`. -/
def entryOk : PyVal → Prop
  | PyVal.list [a, b, c] =>
      (∃ n, pyToInt a = Except.ok n) ∧ (∃ n, pyToInt b = Except.ok n) ∧
        (∃ n, pyToInt c = Except.ok n)
  | _ => True

/-- A `"chunks"` value `from_dict` can process without raising: not a dict
(ignored), or a dict whose keys all coerce with `int()` and whose list
values contain only `entryOk` entries. -/
def chunksValOk : PyVal → Prop
  | PyVal.dict rcs => ∀ kv ∈ rcs,
      (∃ n, pyToInt kv.1 = Except.ok n) ∧
        (∀ es, kv.2 = PyVal.list es → ∀ e ∈ es, entryOk e)
  | _ => True

theorem foldlM_ok_of_steps {ε α β : Type} (f : α → β → Except ε α)
    (l : List β) (h : ∀ a b, b ∈ l → ∃ a', f a b = Except.ok a') :
    ∀ init, ∃ r, l.foldlM f init = Except.ok r := by
  induction l with
  | nil => intro init; exact ⟨init, rfl⟩
  | cons b l ih =>
      intro init
      obtain ⟨a1, ha1⟩ := h init b (List.mem_cons_self _ _)
      obtain ⟨r, hr⟩ := ih (fun a b' hb' => h a b' (List.mem_cons_of_mem _ hb')) a1
      exact ⟨r, by rw [List.foldlM_cons, ha1, exc_bind_ok, hr]⟩

theorem chunkEntryStep_ok (ch : Chunk) (e : PyVal) (he : entryOk e) :
    ∃ ch', chunkEntryStep ch e = Except.ok ch' := by
  cases e with
  | list es =>
      match es, he with
      | [], _ => exact ⟨ch, rfl⟩
      | [a], _ => exact ⟨ch, rfl⟩
      | [a, b], _ => exact ⟨ch, rfl⟩
      | [a, b, c], he =>
          obtain ⟨⟨na, ha⟩, ⟨nb, hb⟩, ⟨nc, hc⟩⟩ := he
          refine ⟨dinsert ch (na, nb) nc, ?_⟩
          show (pyToInt a >>= fun wx => pyToInt b >>= fun wy =>
            pyToInt c >>= fun bid => pure (dinsert ch (wx, wy) bid)) = _
          rw [ha, exc_bind_ok, hb, exc_bind_ok, hc, exc_bind_ok]
          rfl
      | a :: b :: c :: d :: rest, _ => exact ⟨ch, rfl⟩
  | none => exact ⟨ch, rfl⟩
  | int n => exact ⟨ch, rfl⟩
  | str s => exact ⟨ch, rfl⟩
  | dict xs => exact ⟨ch, rfl⟩

theorem parseChunkEntries_ok (v : PyVal)
    (hv : ∀ es, v = PyVal.list es → ∀ e ∈ es, entryOk e) :
    ∃ ch, parseChunkEntries v = Except.ok ch := by
  cases v with
  | list es =>
      exact foldlM_ok_of_steps chunkEntryStep es
        (fun a e he => chunkEntryStep_ok a e (hv es rfl e he)) []
  | none => exact ⟨[], rfl⟩
  | int n => exact ⟨[], rfl⟩
  | str s => exact ⟨[], rfl⟩
  | dict xs => exact ⟨[], rfl⟩

theorem chunkPairStep_ok (acc : List (Int × Chunk)) (kv : PyVal × PyVal)
    (hk : ∃ n, pyToInt kv.1 = Except.ok n)
    (hv : ∀ es, kv.2 = PyVal.list es → ∀ e ∈ es, entryOk e) :
    ∃ acc', chunkPairStep acc kv = Except.ok acc' := by
  obtain ⟨n, hn⟩ := hk
  obtain ⟨ch, hch⟩ := parseChunkEntries_ok kv.2 hv
  refine ⟨dinsert acc n ch, ?_⟩
  show (pyToInt kv.1 >>= fun cx => parseChunkEntries kv.2 >>= fun ch =>
    pure (dinsert acc cx ch)) = _
  rw [hn, exc_bind_ok, hch, exc_bind_ok]
  rfl

/-- The malformed save of the C3 counterexample: one chunk entry of the
right arity whose first element is `None`, which `int()` cannot coerce. -/
def badSave : PyVal :=
  PyVal.dict [(PyVal.str "chunks",
    PyVal.dict [(PyVal.str "0",
      PyVal.list [PyVal.list [PyVal.none, PyVal.int 1, PyVal.int 2]])])]

/-- **C3 counterexample**: `from_dict` is not total on malformed input.
A chunk entry that *is* a list of length 3 but whose element is `None`
makes `int(entry[0])` raise, aborting the whole load — contradicting
"never raising an error that aborts the whole load". -/
theorem from_dict_raises_cex : worldFromDict badSave 0 = Except.error () :=
  rfl

/-- **C3** (amended): `from_dict` skips chunk entries that are not lists
or not of length 3, and returns a world whenever every chunk key and every
element of every length-3 list entry is `int()`-coercible; uncoercible
keys or elements raise instead of being skipped.  The second conjunct is
the repository's own malformed-shapes scenario: seed 7 with a wrong-arity
entry under key "0" and a non-list value under key "1" loads as a world
with two empty chunks. -/
theorem from_dict_defensive (d : List (PyVal × PyVal)) (dseed : Int)
    (h : chunksValOk ((pyGetStr d "chunks").getD (PyVal.dict []))) :
    (∃ w, worldFromDict (PyVal.dict d) dseed = Except.ok w) ∧
    (worldFromDict (PyVal.dict
        [(PyVal.str "seed", PyVal.int 7),
          (PyVal.str "chunks", PyVal.dict
            [(PyVal.str "0", PyVal.list [PyVal.list [PyVal.str "bad"]]),
              (PyVal.str "1", PyVal.str "bad")])]) 0 =
      Except.ok { freshWorld 7 with chunks := [(0, []), (1, [])] }) := by
  constructor
  · rw [worldFromDict]
    rcases hv : (pyGetStr d "chunks").getD (PyVal.dict [])
      with _ | n | st | xs | rcs <;> rw [hv] at h
    · exact ⟨_, rfl⟩
    · exact ⟨_, rfl⟩
    · exact ⟨_, rfl⟩
    · exact ⟨_, rfl⟩
    · obtain ⟨r, hr⟩ := foldlM_ok_of_steps chunkPairStep rcs
        (fun a kv hkv => chunkPairStep_ok a kv (h kv hkv).1 (h kv hkv).2) []
      exact ⟨_, by dsimp only; rw [hr, exc_bind_ok]; rfl⟩
  · rfl

theorem from_dict_defensive_witness :
    (∃ w, worldFromDict (PyVal.dict []) 0 = Except.ok w) :=
  (from_dict_defensive [] 0
    (fun kv hkv => absurd hkv (List.not_mem_nil kv))).1

/-! ## Player physics -/

/-- `pygame.Rect`: integer position and size. -/
structure PRect where
  x : Int
  y : Int
  w : Int
  h : Int
deriving DecidableEq

/-- `Rect.colliderect`: strict overlap on both axes (all rects involved
here have positive size). -/
def collide (a b : PRect) : Bool :=
  a.x < b.x + b.w ∧ b.x < a.x + a.w ∧ a.y < b.y + b.h ∧ b.y < a.y + a.h

/-- `int(TILE_SIZE * 0.72)` = 23. -/
def PLAYER_W : Int := pyInt ((TILE_SIZE : ℚ) * 0.72)

/-- `int(TILE_SIZE * 1.62)` = 51. -/
def PLAYER_H : Int := pyInt ((TILE_SIZE : ℚ) * 1.62)

structure Player where
  x : ℚ
  y : ℚ
  vx : ℚ
  vy : ℚ
  on_ground : Bool
  facing : Int
  walk_cycle : ℚ
deriving DecidableEq

/-- The three key groups `Player.update` reads (a/left, d/right,
w/up/space). -/
structure Keys where
  left : Bool
  right : Bool
  jump : Bool
deriving DecidableEq

/-- `Player.rect`. -/
def playerRect (p : Player) : PRect :=
  { x := pyInt p.x, y := pyInt p.y, w := PLAYER_W, h := PLAYER_H }

/-- `Player._solid_at`, threading the world `get_block` may mutate. -/
def solidAt (nm : NoiseModel) (w : World) (wx wy : Int) : Bool × World :=
  let r := getBlock nm w wx wy
  (blockSolid r.1, r.2)

/-- `Player._collect_solid_tiles`. -/
def collectSolidTiles (nm : NoiseModel) (w : World) (rect : PRect) :
    List PRect × World :=
  let min_tx := Int.fdiv rect.x TILE_SIZE
  let max_tx := Int.fdiv (rect.x + rect.w - 1) TILE_SIZE
  let min_ty := Int.fdiv rect.y TILE_SIZE
  let max_ty := Int.fdiv (rect.y + rect.h - 1) TILE_SIZE
  (intRange min_tx (max_tx + 1)).foldl
    (fun acc tx =>
      (intRange min_ty (max_ty + 1)).foldl
        (fun acc ty =>
          let s := solidAt nm acc.2 tx ty
          (if s.1 then
              acc.1 ++ [{ x := tx * TILE_SIZE, y := ty * TILE_SIZE,
                          w := TILE_SIZE, h := TILE_SIZE }]
            else acc.1, s.2))
        acc)
    ([], w)

/-- `float(right) - float(left)`. -/
def moveInput (keys : Keys) : ℚ :=
  (if keys.right then (1 : ℚ) else 0) - (if keys.left then (1 : ℚ) else 0)

/-- The horizontal-velocity portion of `Player.update`: acceleration
toward the target speed, then ground friction with the snap-to-zero
threshold. -/
def vxStep (p : Player) (dt : ℚ) (keys : Keys) : ℚ :=
  let move_input := moveInput keys
  let target_vx := move_input * 290
  let accel : ℚ := if p.on_ground then 11.5 else 6.5
  let vx1 := p.vx + (target_vx - p.vx) * min 1 (accel * dt)
  if |move_input| < 0.01 ∧ p.on_ground = true then
    let v := vx1 * max 0 (1 - 9.5 * dt)
    if |v| < 4 then 0 else v
  else vx1

/-- The vertical-velocity portion of `Player.update`: jump impulse when
grounded, then gravity with the terminal-velocity clamp. -/
def vyStep (p : Player) (dt : ℚ) (keys : Keys) : ℚ :=
  let vy1 := if keys.jump ∧ p.on_ground = true then -(545 : ℚ) else p.vy
  min (vy1 + 1320 * dt) 1200

/-- The rect `Player.update` collides horizontally: `x` already moved,
`y` not yet. -/
def xRect (p : Player) (dt : ℚ) (keys : Keys) : PRect :=
  { x := pyInt (p.x + vxStep p dt keys * dt), y := pyInt p.y,
    w := PLAYER_W, h := PLAYER_H }

/-- The horizontal collision loop: state is (rect, x, vx). -/
def resolveX (tiles : List PRect) (rect0 : PRect) (x0 vx0 : ℚ) :
    PRect × ℚ × ℚ :=
  tiles.foldl
    (fun st tile =>
      let rect := st.1
      let vx := st.2.2
      if collide rect tile then
        let rect' :=
          if vx > 0 then { rect with x := tile.x - rect.w }
          else if vx < 0 then { rect with x := tile.x + tile.w }
          else rect
        (rect', ((rect'.x : ℚ), 0))
      else st)
    (rect0, (x0, vx0))

/-- The vertical collision loop: state is (rect, y, vy, on_ground). -/
def resolveY (tiles : List PRect) (rect0 : PRect) (y0 vy0 : ℚ)
    (og0 : Bool) : PRect × ℚ × ℚ × Bool :=
  tiles.foldl
    (fun st tile =>
      let rect := st.1
      let vy := st.2.2.1
      let og := st.2.2.2
      if collide rect tile then
        let rog :=
          if vy > 0 then ({ rect with y := tile.y - rect.h }, true)
          else if vy < 0 then ({ rect with y := tile.y + tile.h }, og)
          else (rect, og)
        (rog.1, ((rog.1.y : ℚ), (0, rog.2)))
      else st)
    (rect0, (y0, (vy0, og0)))

/-- `Player.update`. -/
def playerUpdate (nm : NoiseModel) (w : World) (p : Player) (dt : ℚ)
    (keys : Keys) : Player × World :=
  let move_input := moveInput keys
  let vx2 := vxStep p dt keys
  let vy2 := vyStep p dt keys
  let x1 := p.x + vx2 * dt
  let rectX := xRect p dt keys
  let ctX := collectSolidTiles nm w rectX
  let rxv := resolveX ctX.1 rectX x1 vx2
  let x2 := rxv.2.1
  let vx3 := rxv.2.2
  let y1 := p.y + vy2 * dt
  let rectY : PRect := { x := pyInt x2, y := pyInt y1,
                         w := PLAYER_W, h := PLAYER_H }
  let ctY := collectSolidTiles nm ctX.2 rectY
  let ryv := resolveY ctY.1 rectY y1 vy2 false
  let facing2 := if move_input ≠ 0 then (if move_input > 0 then 1 else -1)
                 else p.facing
  let wc2 := if move_input ≠ 0 then p.walk_cycle + dt * 9 * |move_input|
             else p.walk_cycle
  ({ x := x2, y := ryv.2.1, vx := vx3, vy := ryv.2.2.1,
     on_ground := ryv.2.2.2, facing := facing2, walk_cycle := wc2 }, ctY.2)

/-- The grounded player of the C10 counterexample, floating far above the
world so no solid tiles exist near it. -/
def cexPlayer : Player :=
  { x := 0, y := -1000, vx := 0, vy := 0, on_ground := true, facing := 1,
    walk_cycle := 0 }

/-- **C10 counterexample**: with `dt = 1` a grounded jumping player ends
the step with `vy = -545 + 1320·1 = 775 > 0`: gravity applied in the same
step can overwhelm the impulse, so the vertical velocity is *not* strictly
negative at the end of every step. -/
theorem jump_step_cex :
    (playerUpdate nmOne (freshWorld 0) cexPlayer 1
        { left := false, right := false, jump := true }).1.vy = 775 ∧
    ¬ ((playerUpdate nmOne (freshWorld 0) cexPlayer 1
        { left := false, right := false, jump := true }).1.vy < 0) := by
  decide

/-- **C10** (amended): a grounded player with the jump input held ends the
step with `vy = -JUMP_FORCE + GRAVITY·dt` and `on_ground = false`, and this
is strictly negative — provided `GRAVITY·dt < JUMP_FORCE` (the original
claim omitted this bound on `dt`; see the counterexample) and no solid
tiles obstruct either collision pass. -/
theorem jump_step (nm : NoiseModel) (w : World) (p : Player) (dt : ℚ)
    (keys : Keys)
    (hog : p.on_ground = true) (hj : keys.jump = true)
    (hdt : 0 < dt) (hsmall : 1320 * dt < 545)
    (hfree1 : (collectSolidTiles nm w (xRect p dt keys)).1 = [])
    (hfree2 : (collectSolidTiles nm
        (collectSolidTiles nm w (xRect p dt keys)).2
        { x := pyInt (p.x + vxStep p dt keys * dt),
          y := pyInt (p.y + vyStep p dt keys * dt),
          w := PLAYER_W, h := PLAYER_H }).1 = []) :
    (playerUpdate nm w p dt keys).1.vy = -545 + 1320 * dt ∧
    (playerUpdate nm w p dt keys).1.vy < 0 ∧
    (playerUpdate nm w p dt keys).1.on_ground = false := by
  have hvy : vyStep p dt keys = -545 + 1320 * dt := by
    rw [vyStep]
    have h1 : (if keys.jump ∧ p.on_ground = true then -(545 : ℚ) else p.vy)
        = -545 := by rw [hj, hog]; simp
    rw [h1]
    have h2 : -(545 : ℚ) + 1320 * dt ≤ 1200 := by linarith
    simpa using min_eq_left h2
  have hx2 : (resolveX (collectSolidTiles nm w (xRect p dt keys)).1
      (xRect p dt keys) (p.x + vxStep p dt keys * dt)
      (vxStep p dt keys)).2.1 = p.x + vxStep p dt keys * dt := by
    rw [hfree1]; rfl
  rw [playerUpdate]
  dsimp only
  rw [hx2, hfree2]
  refine ⟨hvy, ?_, rfl⟩
  show vyStep p dt keys < 0
  rw [hvy]
  linarith

theorem jump_step_witness :
    (playerUpdate nmOne (freshWorld 3) cexPlayer (1 / 100)
        { left := false, right := false, jump := true }).1.vy
      = -545 + 1320 * (1 / 100) ∧
    (playerUpdate nmOne (freshWorld 3) cexPlayer (1 / 100)
        { left := false, right := false, jump := true }).1.vy < 0 ∧
    (playerUpdate nmOne (freshWorld 3) cexPlayer (1 / 100)
        { left := false, right := false, jump := true }).1.on_ground
      = false :=
  jump_step nmOne (freshWorld 3) cexPlayer (1 / 100)
    { left := false, right := false, jump := true }
    rfl rfl (by decide) (by decide) (by decide) (by decide)

end Gascraft